import Mathlib

/-!
Vec.h: a growable array over explicit storage

A shallow embedding of `template<typename T> class Vec` (file `Vec.h`).

* Memory is a flat store of element slots addressed by natural numbers; a
  pointer `T*` is the address of a slot, `NULL` is address `0`, and pointer
  arithmetic is arithmetic on addresses (in units of one element).
* A slot records whether it currently holds a constructed object and which
  value is stored in it.  A destructor call ends the lifetime of the object and
  leaves the stored value in place (as for `int`, the element type used by
  `vector_test.cpp`).
* `std::allocator<T>` is a bump allocator over that store with an oracle that
  decides which requests fail with `std::bad_alloc`.  The content of a block is
  indeterminate once the block is deallocated.
* A parameter of type `const T&` is a reference: it names an object outside the
  free store or a cell of it, and is read where the code reads it.
* The four data members of a `Vec` object are a record of `size_t` and
  pointer values; the stateless member `alloc` is the heap itself.
-/

namespace VecCpp

/-- Largest value of `size_t`: `SIZE_MAX` of `<cstdint>` on an LP64 platform. -/
def SIZE_MAX : Nat := 18446744073709551615

/-- One element-sized cell of storage. `live` tells whether a constructed object
currently occupies the cell, `val` is the value stored in it (`none`: indeterminate, the
cell was never written or its block was deallocated). -/
structure Slot (T : Type) where
  live : Bool
  val : Option T
deriving DecidableEq

/-- Uninitialised storage. -/
def Slot.raw {T : Type} : Slot T := ⟨false, none⟩

/-- Free store seen by `std::allocator<T>`.
`mem` is the content of every cell, `next` the first address never handed out,
`blocks` the list of blocks `(base, size)` currently allocated, `faults` the
addresses of constructor or destructor calls made outside every allocated block,
`oom k n` tells whether the request for `n` elements made after `k` successful
requests fails, and `nallocs` counts the successful requests. -/
structure Heap (T : Type) where
  mem : Nat → Slot T
  next : Nat
  blocks : List (Nat × Nat)
  faults : List Nat
  oom : Nat → Nat → Bool
  nallocs : Nat

/-- The free store at program start: nothing allocated, address `0` reserved for `NULL`. -/
def Heap.init {T : Type} (oom : Nat → Nat → Bool) : Heap T :=
  { mem := fun _ => Slot.raw, next := 1, blocks := [], faults := [], oom := oom, nallocs := 0 }

/-- Replace the content of one cell. -/
def setCell {T : Type} (m : Nat → Slot T) (a : Nat) (s : Slot T) : Nat → Slot T :=
  fun b => if b = a then s else m b

/-- Whether address `a` lies inside a currently allocated block. -/
def Heap.inBlock {T : Type} (h : Heap T) (a : Nat) : Bool :=
  h.blocks.any (fun b => decide (b.1 ≤ a) && decide (a < b.1 + b.2))

/-- Record an access to address `a` in `faults` when it is outside every block. -/
def Heap.note {T : Type} (h : Heap T) (a : Nat) : List Nat :=
  if h.inBlock a then h.faults else a :: h.faults

/-- The call `alloc.allocate(n)`: `none` when `std::bad_alloc` is thrown, otherwise
the address of a fresh block of `n` uninitialised cells (never `NULL`, also for
`n == 0`) and the new heap. One unused cell follows every block, so that the
one-past-the-end address of a block belongs to no other block. -/
def Heap.allocate {T : Type} (h : Heap T) (n : Nat) : Option (Nat × Heap T) :=
  if h.oom h.nallocs n then none
  else some (h.next,
    { h with
      mem := fun a => if h.next ≤ a ∧ a < h.next + n then Slot.raw else h.mem a
      next := h.next + n + 1
      blocks := (h.next, n) :: h.blocks
      nallocs := h.nallocs + 1 })

/-- The call `alloc.deallocate(p, n)`: the block is returned to the allocator, and the
content of its `n` cells is indeterminate from then on. -/
def Heap.deallocate {T : Type} (h : Heap T) (p n : Nat) : Heap T :=
  { h with
    mem := fun a => if p ≤ a ∧ a < p + n then Slot.raw else h.mem a
    blocks := h.blocks.erase (p, n) }

/-- Placement new `new (a) T(x)`: a constructed object with value `x` occupies cell `a`. -/
def Heap.construct {T : Type} (h : Heap T) (a : Nat) (x : Option T) : Heap T :=
  { h with mem := setCell h.mem a ⟨true, x⟩, faults := h.note a }

/-- The explicit destructor call `reinterpret_cast<T*>(a)->~T()`. -/
def Heap.destroy_at {T : Type} (h : Heap T) (a : Nat) : Heap T :=
  { h with mem := setCell h.mem a ⟨false, (h.mem a).val⟩, faults := h.note a }

/-- The value read through `*a`. -/
def Heap.read {T : Type} (h : Heap T) (a : Nat) : Option T := (h.mem a).val

/-- The assignment `*a = x` to an existing element. -/
def Heap.assign {T : Type} (h : Heap T) (a : Nat) (x : T) : Heap T :=
  { h with mem := setCell h.mem a ⟨(h.mem a).live, some x⟩ }

/-- What a parameter of type `const T&` refers to: an object outside the free store (a
local variable or a temporary) with the given value, or the cell at an address of the free
store, such as the element `a[k]` of a `Vec`. -/
inductive Ref (T : Type) where
  | obj (x : T)
  | cell (a : Nat)

/-- The value read through a reference at the moment of the read. -/
def Heap.deref {T : Type} (h : Heap T) : Ref T → Option T
  | .obj x => some x
  | .cell a => h.read a

/-- Body of `std::uninitialized_copy`: construct `n` objects at `d, d+1, ...`
from the values at `s, s+1, ...`, front to back. -/
def copy_cells {T : Type} : Nat → Nat → Nat → Heap T → Heap T
  | 0, _, _, h => h
  | n + 1, s, d, h => copy_cells n (s + 1) (d + 1) (h.construct d (h.read s))

/-- The call `std::uninitialized_copy(first, last, d)`: the returned pointer and the new
heap; `none` when `[first, last)` is not a range (undefined behaviour). -/
def uninitialized_copy {T : Type} (h : Heap T) (first last d : Nat) : Option (Nat × Heap T) :=
  if first ≤ last then some (d + (last - first), copy_cells (last - first) first d h) else none

/-- Body of `std::uninitialized_fill`: construct `n` copies of `x` at `d, d+1, ...`. -/
def fill_cells {T : Type} : Nat → Nat → T → Heap T → Heap T
  | 0, _, _, h => h
  | n + 1, d, x, h => fill_cells n (d + 1) x (h.construct d (some x))

/-- The call `std::uninitialized_fill(first, last, x)`; `none` when `[first, last)` is
not a range. -/
def uninitialized_fill {T : Type} (h : Heap T) (first last : Nat) (x : T) : Option (Heap T) :=
  if first ≤ last then some (fill_cells (last - first) first x h) else none

/-- The data members of a `Vec<T>` object, in declaration order. -/
structure Vec where
  cap : Nat
  len : Nat
  one_past_last : Nat
  data : Nat
deriving DecidableEq

/-- The null pointer. -/
abbrev NULL : Nat := 0

/-- Ways in which a member function does not return normally. -/
inductive Stop where
  /-- The call of `fatal` in `_construct(size_t, const T&)` after a failed allocation: `exit(1)`. -/
  | fatal_construct
  /-- The call of `fatal` in `_grow` after a failed allocation: `exit(1)`. -/
  | fatal_grow
  /-- The assertion `assert(this->cap < (SIZE_MAX - 1) / 2)` of `_grow` failed. -/
  | assert_cap
  /-- The assertion `assert(new_cap > this->cap)` of `_grow` failed. -/
  | assert_new_cap
  /-- The exception `std::bad_alloc` leaves the function. -/
  | bad_alloc
  /-- Undefined behaviour: a pointer loop that never meets its end, or a pointer pair
  that is not a range. -/
  | undefined
deriving DecidableEq

/-- Result of a member function that may stop: on a stop, the object and the heap at
that moment. -/
abbrev Result (T : Type) (α : Type) := Except (Stop × Vec × Heap T) α

namespace Vec

/-- Member `begin()`. -/
def begin (v : Vec) : Nat := v.data

/-- Member `end()`. -/
def end_ (v : Vec) : Nat := v.one_past_last

/-- Member `size()`. -/
def size (v : Vec) : Nat := v.len

/-- Member `empty()`. -/
def empty (v : Vec) : Bool := decide (v.len = 0)

/-- Member `operator[](i)`: the cell `this->data[i]`. -/
def index {T : Type} (v : Vec) (h : Heap T) (i : Nat) : Slot T := h.mem (v.data + i)

/-- The reference that `operator[](i)` returns: it refers to the cell `this->data[i]`. -/
def ref {T : Type} (v : Vec) (i : Nat) : Ref T := .cell (v.data + i)

/-- Member `_construct(void)`. -/
def _construct (_self : Vec) : Vec :=
  { cap := 0, len := 0, one_past_last := NULL, data := NULL }

/-- Member `_construct(size_t n, const T& v)`. -/
def _construct_fill {T : Type} (self : Vec) (n : Nat) (x : T) (h : Heap T) :
    Result T (Vec × Heap T) :=
  let s1 : Vec := { self with len := n, cap := n }
  match h.allocate n with
  | none => .error (Stop.fatal_construct, s1, h)
  | some (p, h1) =>
    let s2 : Vec := { s1 with data := p }
    let s3 : Vec := { s2 with one_past_last := s2.data + n }
    match uninitialized_fill h1 s3.data s3.one_past_last x with
    | none => .error (Stop.undefined, s3, h1)
    | some h2 => .ok (s3, h2)

/-- Member `_construct(const_iterator s, const_iterator e)`. The difference `e - s` of a
pointer pair with `e < s` is undefined. -/
def _construct_range {T : Type} (self : Vec) (s e : Nat) (h : Heap T) :
    Result T (Vec × Heap T) :=
  if e < s then .error (Stop.undefined, self, h) else
  let new_cap := e - s
  match h.allocate new_cap with
  | none => .error (Stop.bad_alloc, self, h)
  | some (p, h1) =>
    let s1 : Vec := { self with data := p }
    match uninitialized_copy h1 s e s1.data with
    | none => .error (Stop.undefined, s1, h1)
    | some (q, h2) =>
      let s2 : Vec := { s1 with one_past_last := q }
      .ok ({ s2 with len := new_cap, cap := new_cap }, h2)

/-- The loop of `_destroy`: `while (it != this->data) { (--it)->~T(); }`, run for at most
`fuel` iterations; `none` when the loop has not met `data` by then. -/
def destroy_loop {T : Type} : Nat → Nat → Nat → Heap T → Option (Heap T)
  | 0, data, it, h => if it ≠ data then none else some h
  | fuel + 1, data, it, h =>
    if it ≠ data then destroy_loop fuel data (it - 1) (h.destroy_at (it - 1)) else some h

/-- Member `_destroy()`. The loop walks down from `one_past_last` and meets `data` after
`one_past_last - data` steps when `data ≤ one_past_last`, and never otherwise. -/
def _destroy {T : Type} (self : Vec) (h : Heap T) : Result T (Vec × Heap T) :=
  let reset : Vec := { cap := 0, len := 0, one_past_last := NULL, data := NULL }
  if self.data ≠ NULL then
    match destroy_loop (self.one_past_last - self.data) self.data self.one_past_last h with
    | none => .error (Stop.undefined, self, h)
    | some h1 => .ok (reset, h1.deallocate self.data self.cap)
  else .ok (reset, h)

/-- Member `_grow(size_t new_len)`, with `size_t` arithmetic modulo `SIZE_MAX + 1`. -/
def _grow {T : Type} (self : Vec) (new_len : Nat) (h : Heap T) : Result T (Vec × Heap T) :=
  if ¬ (self.cap < (SIZE_MAX - 1) / 2) then .error (Stop.assert_cap, self, h) else
  let new_cap := max ((2 * self.cap + 1) % (SIZE_MAX + 1)) (max new_len 8)
  if ¬ (new_cap > self.cap) then .error (Stop.assert_new_cap, self, h) else
  match h.allocate new_cap with
  | none => .error (Stop.fatal_grow, self, h)
  | some (new_data, h1) =>
    match uninitialized_copy h1 self.data self.one_past_last new_data with
    | none => .error (Stop.undefined, self, h1)
    | some (_, h2) =>
      match _destroy self h2 with
      | .error e => .error e
      | .ok (_, h3) =>
        .ok ({ cap := new_cap, len := new_len, data := new_data,
               one_past_last := new_data + new_len }, h3)

/-- Member `_swap(Vec<T>& other)`: the pair `(this, other)` after the call. -/
def _swap (self other : Vec) : Vec × Vec :=
  ({ self with data := other.data, one_past_last := other.one_past_last,
               len := other.len, cap := other.cap },
   { other with data := self.data, one_past_last := self.one_past_last,
                len := self.len, cap := self.cap })

/-- Member `push_back(const T& v)`. The parameter is a reference: `T(v)` reads it at the
placement new, which comes after the call of `_grow`. -/
def push_back {T : Type} (self : Vec) (v : Ref T) (h : Heap T) : Result T (Vec × Heap T) :=
  let new_len := (self.len + 1) % (SIZE_MAX + 1)
  match (if new_len > self.cap then _grow self new_len h else .ok (self, h)) with
  | .error e => .error e
  | .ok (s1, h1) =>
    let s2 : Vec := { s1 with one_past_last := s1.data + new_len }
    let h2 := h1.construct (s2.one_past_last - 1) (h1.deref v)
    .ok ({ s2 with len := new_len }, h2)

/-- Member `clear()`. -/
def clear {T : Type} (self : Vec) (h : Heap T) : Result T (Vec × Heap T) :=
  _destroy self h

/-- The loop of `erase`:
`for (i = pos; i != one_past_last - 1; ++i) { i->~T(); new (one_past_last) T(*(i + 1)); }`,
run for at most `fuel` iterations; the final `i` and heap, `none` when the loop has not
met `one_past_last - 1` by then. -/
def erase_loop {T : Type} : Nat → Vec → Nat → Heap T → Option (Nat × Heap T)
  | 0, self, i, h => if i ≠ self.one_past_last - 1 then none else some (i, h)
  | fuel + 1, self, i, h =>
    if i ≠ self.one_past_last - 1 then
      let h1 := h.destroy_at i
      erase_loop fuel self (i + 1) (h1.construct self.one_past_last (h1.read (i + 1)))
    else some (i, h)

/-- Member `erase(iterator pos)`: the returned iterator, the object and the heap. The loop
walks up from `pos` and meets `one_past_last - 1` after `one_past_last - 1 - pos` steps
when `pos ≤ one_past_last - 1`, and never otherwise. -/
def erase {T : Type} (self : Vec) (pos : Nat) (h : Heap T) : Result T (Nat × Vec × Heap T) :=
  match erase_loop (self.one_past_last - 1 - pos) self pos h with
  | none => .error (Stop.undefined, self, h)
  | some (i, h1) =>
    let h2 := h1.destroy_at i
    let s1 : Vec := { self with one_past_last := self.one_past_last - 1 }
    .ok (pos, { s1 with len := s1.len - 1 }, h2)

/-- Constructor `Vec()`. `raw` is the object before construction. -/
def ctor (raw : Vec) : Vec := _construct raw

/-- Constructor `Vec(size_t n, const T& v)`. -/
def ctor_fill {T : Type} (raw : Vec) (n : Nat) (x : T) (h : Heap T) : Result T (Vec × Heap T) :=
  _construct_fill raw n x h

/-- Copy constructor `Vec(const Vec& v)`. -/
def ctor_copy {T : Type} (raw : Vec) (v : Vec) (h : Heap T) : Result T (Vec × Heap T) :=
  _construct_range raw v.begin v.end_ h

/-- Move constructor `Vec(Vec&& rhs)`: the pair `(this, rhs)` after construction. -/
def ctor_move (_raw : Vec) (rhs : Vec) : Vec × Vec :=
  let this : Vec := { len := 0, cap := 0, data := NULL, one_past_last := NULL }
  let r := _swap rhs this
  (r.2, r.1)

/-- Copy assignment `operator=(const Vec& rhs)`; `same` tells whether `this == &rhs`. -/
def copy_assign {T : Type} (same : Bool) (self rhs : Vec) (h : Heap T) :
    Result T (Vec × Heap T) :=
  if same = false then
    match _destroy self h with
    | .error e => .error e
    | .ok (s1, h1) => _construct_range s1 rhs.begin rhs.end_ h1
  else .ok (self, h)

/-- Modelled from the spec: the member `swap` that move assignment calls
(`rhs.swap(*this)`) is not declared in the class. The spec says move assignment
"exchanges ownership of storage/length/capacity with the source via a swap-like
transfer": the pair `(this, other)` after the call has all four members exchanged. -/
def swap (self other : Vec) : Vec × Vec := (other, self)

/-- Move assignment `operator=(Vec&& rhs)`: the pair `(this, rhs)` after the call. -/
def move_assign (self rhs : Vec) : Vec × Vec :=
  let r := swap rhs self
  (r.2, r.1)

end Vec

/-- A program state: the `Vec` objects constructed so far and the free store. -/
structure World (T : Type) where
  objs : List Vec
  heap : Heap T

/-- The public operations of `Vec<T>`. Objects are named by their position in
`World.objs`; `raw` is the indeterminate content of an object before construction.
The destructor runs `_destroy` like `clear` and is covered by it. -/
inductive Op (T : Type) where
  /-- Statement `Vec<T> a;` -/
  | ctor (raw : Vec)
  /-- Statement `Vec<T> a(n, x);` -/
  | ctor_fill (raw : Vec) (n : Nat) (x : T)
  /-- Statement `Vec<T> a(objs[j]);` -/
  | ctor_copy (raw : Vec) (j : Nat)
  /-- Statement `Vec<T> a(std::move(objs[j]));` -/
  | ctor_move (raw : Vec) (j : Nat)
  /-- Statement `objs[i].push_back(v);` with what the argument refers to -/
  | push_back (i : Nat) (v : Ref T)
  /-- Statement `objs[i].erase(objs[i].begin() + k);` with `k < size()` -/
  | erase (i k : Nat)
  /-- Statement `objs[i].clear();` -/
  | clear (i : Nat)
  /-- Statement `objs[i][k] = x;` with `k < size()` -/
  | store (i k : Nat) (x : T)
  /-- Statement `objs[i] = objs[j];` -/
  | copy_assign (i j : Nat)
  /-- Statement `objs[i] = std::move(objs[j]);` -/
  | move_assign (i j : Nat)

/-- Put the object and heap returned by a member function of `objs[i]` back. -/
def World.put {T : Type} (w : World T) (i : Nat) (r : Result T (Vec × Heap T)) :
    Option (World T) :=
  match r with
  | .ok (v, h) => some { objs := w.objs.set i v, heap := h }
  | .error _ => none

/-- Add the object returned by a constructor. -/
def World.add {T : Type} (w : World T) (r : Result T (Vec × Heap T)) : Option (World T) :=
  match r with
  | .ok (v, h) => some { objs := w.objs ++ [v], heap := h }
  | .error _ => none

/-- One public operation; `none` when the operation does not return normally or is
called outside its contract (no such object, position or index not below `size()`,
a count that is not a `size_t`). -/
def World.step {T : Type} (w : World T) : Op T → Option (World T)
  | .ctor raw => some { w with objs := w.objs ++ [Vec.ctor raw] }
  | .ctor_fill raw n x =>
    if n ≤ SIZE_MAX then w.add (Vec.ctor_fill raw n x w.heap) else none
  | .ctor_copy raw j =>
    match w.objs[j]? with
    | none => none
    | some vj => w.add (Vec.ctor_copy raw vj w.heap)
  | .ctor_move raw j =>
    match w.objs[j]? with
    | none => none
    | some vj =>
      let r := Vec.ctor_move raw vj
      some { w with objs := w.objs.set j r.2 ++ [r.1] }
  | .push_back i x =>
    match w.objs[i]? with
    | none => none
    | some v => w.put i (v.push_back x w.heap)
  | .erase i k =>
    match w.objs[i]? with
    | none => none
    | some v =>
      if k < v.size then
        match v.erase (v.begin + k) w.heap with
        | .ok (_, v1, h1) => some { objs := w.objs.set i v1, heap := h1 }
        | .error _ => none
      else none
  | .clear i =>
    match w.objs[i]? with
    | none => none
    | some v => w.put i (v.clear w.heap)
  | .store i k x =>
    match w.objs[i]? with
    | none => none
    | some v =>
      if k < v.size then some { w with heap := w.heap.assign (v.data + k) x } else none
  | .copy_assign i j =>
    match w.objs[i]?, w.objs[j]? with
    | some vi, some vj => w.put i (Vec.copy_assign (decide (i = j)) vi vj w.heap)
    | _, _ => none
  | .move_assign i j =>
    match w.objs[i]?, w.objs[j]? with
    | some vi, some vj =>
      let r := Vec.move_assign vi vj
      some { w with objs := (w.objs.set j r.2).set i r.1 }
    | _, _ => none

/-- The states a program can be in: start with no object and an untouched free store,
then apply public operations. -/
inductive Reachable {T : Type} : World T → Prop where
  | init (oom : Nat → Nat → Bool) : Reachable { objs := [], heap := Heap.init oom }
  | step {w w1 : World T} (op : Op T) : Reachable w → w.step op = some w1 → Reachable w1

/-- Call `push_back` on each argument of the list in order. -/
def push_back_all {T : Type} : List (Ref T) → Vec → Heap T → Result T (Vec × Heap T)
  | [], v, h => .ok (v, h)
  | x :: xs, v, h =>
    match v.push_back x h with
    | .error e => .error e
    | .ok (v1, h1) => push_back_all xs v1 h1

/-- The class invariant on the members of an object: `one_past_last` is `len` elements past
`data`, `len` does not exceed `cap`, the block lies below the free part of the heap, and
`cap` is a `size_t` value. -/
def Inv {T : Type} (v : Vec) (h : Heap T) : Prop :=
  v.one_past_last = v.data + v.len ∧ v.len ≤ v.cap ∧ v.data + v.cap < h.next ∧
    v.cap ≤ SIZE_MAX

/-- The invariant of a program state: address `0` is never handed out, and every object
satisfies the class invariant. -/
def World.Inv {T : Type} (w : World T) : Prop :=
  1 ≤ w.heap.next ∧ ∀ v ∈ w.objs, VecCpp.Inv v w.heap

/-- The object `v` holds exactly the live elements `xs`. -/
def Holds {T : Type} (v : Vec) (h : Heap T) (xs : List T) : Prop :=
  v.size = xs.length ∧ ∀ j, j < xs.length → v.index h j = ⟨true, xs[j]?⟩


/-- The cells `(*this)[0], ..., (*this)[size() - 1]`. -/
def Vec.contents {T : Type} (v : Vec) (h : Heap T) : List (Slot T) :=
  (List.range v.size).map (v.index h)

/-- Perform one public operation; a call that does not return normally or is outside
its contract is not made. -/
def World.exec {T : Type} (w : World T) (op : Op T) : World T := (w.step op).getD w

/-- Perform a list of public operations in order. -/
def World.run {T : Type} (w : World T) (ops : List (Op T)) : World T := ops.foldl World.exec w

/-- An allocator that serves every request. -/
def never_fails : Nat → Nat → Bool := fun _ _ => false

/-- The program state before any object exists. -/
def World.start {T : Type} (oom : Nat → Nat → Bool) : World T :=
  { objs := [], heap := Heap.init oom }

/-- The object `a` of `test1` in `vector_test.cpp` after its loop: `Vec<int> a;` followed by
`a.push_back(i)` for `i = 0, ..., 9`. -/
def test1_pushed : Result Nat (Vec × Heap Nat) :=
  push_back_all ((List.range 10).map Ref.obj) (Vec.ctor ⟨0, 0, 0, 0⟩) (Heap.init never_fails)

/-- The scenario of the specification: `test1_pushed`, then `a.erase(a.begin() + 3)`. -/
def test1_erased : Result Nat (Nat × Vec × Heap Nat) :=
  match test1_pushed with
  | .ok (v, h) => v.erase (v.begin + 3) h
  | .error e => .error e

/-- What a caller sees of the result of `erase`: the returned iterator, the members of the
object and the cells below `size()`; `none` when the call did not return normally. -/
def erase_view {T : Type} : Result T (Nat × Vec × Heap T) → Option (Nat × Vec × List (Slot T))
  | .ok (p, v, h) => some (p, v, v.contents h)
  | .error _ => none

/-- The original elements with index `k` removed and the later ones shifted down by one. -/
def removed_at {T : Type} (xs : List T) (k : Nat) : List T := xs.take k ++ xs.drop (k + 1)

/-- A small program state: `Vec<int> a(2, 7);`. -/
def demo_world : World Nat :=
  (World.start never_fails).exec (.ctor_fill ⟨0, 0, 0, 0⟩ 2 7)

/-- The members of the object of `demo_world`. -/
def demo_vec : Vec := ⟨2, 2, 3, 1⟩

/-- The program state after `Vec<int> a(8, 7);`. -/
def alias_world : World Nat :=
  (World.start never_fails).exec (.ctor_fill ⟨0, 0, 0, 0⟩ 8 7)

/-- The members of the object of `alias_world`. -/
def alias_vec : Vec := ⟨8, 8, 9, 1⟩

/-- The call `a.push_back(a[0]);` in `alias_world`: the argument refers to the first element
of `a` itself, and the object is full, so the call has to grow. -/
def alias_pushed : Result Nat (Vec × Heap Nat) :=
  alias_vec.push_back (alias_vec.ref 0) alias_world.heap

/-- The call `a.push_back(x);` in `alias_world` after `int x = a[0];`: the argument refers
to a local variable that holds the value of the first element. -/
def local_pushed : Result Nat (Vec × Heap Nat) :=
  alias_vec.push_back (.obj 7) alias_world.heap

/-- What a caller sees after `push_back`: the members of the object, the cells below
`size()`, and the allocated blocks `(base, size)`; `none` when the call did not return
normally. -/
def push_view {T : Type} :
    Result T (Vec × Heap T) → Option (Vec × List (Slot T) × List (Nat × Nat))
  | .ok (v, h) => some (v, v.contents h, h.blocks)
  | .error _ => none

/-- The storage cells `data[0], ..., data[cap - 1]` of an object. -/
def Vec.storage {T : Type} (v : Vec) (h : Heap T) : List (Slot T) :=
  (List.range v.cap).map (v.index h)

/-- The loop `for (it = begin(); it != end(); ++it) visit(*it);` of `helper` and `test1` in
`vector_test.cpp`, run for at most `fuel` iterations: the cells visited in order, `none`
when the loop has not met `end()` by then. -/
def iterate_loop {T : Type} : Nat → Nat → Nat → Heap T → Option (List (Slot T))
  | 0, last, it, _ => if it ≠ last then none else some []
  | fuel + 1, last, it, h =>
    if it ≠ last then (iterate_loop fuel last (it + 1) h).map (fun cells => h.mem it :: cells)
    else some []

/-- Iteration from `begin()` until `end()`. The loop walks up from `begin()` and meets `end()`
after `end() - begin()` steps when `begin() ≤ end()`, and never otherwise. -/
def Vec.iterate {T : Type} (v : Vec) (h : Heap T) : Option (List (Slot T)) :=
  iterate_loop (v.end_ - v.begin) v.end_ v.begin h

/-- Two objects do not share storage: one of them has no capacity, or the block of one
ends below the block of the other. -/
def Sep (u v : Vec) : Prop :=
  u.cap = 0 ∨ v.cap = 0 ∨ u.data + u.cap < v.data ∨ v.data + v.cap < u.data

/-- The ownership invariant of a program state: an object with null storage has capacity
0, and objects at different positions do not share storage. -/
def World.Owns {T : Type} (w : World T) : Prop :=
  (∀ v ∈ w.objs, v.data = NULL → v.cap = 0) ∧
  ∀ (p q : Nat) (u v : Vec), p ≠ q → w.objs[p]? = some u → w.objs[q]? = some v → Sep u v

/-- The number of element copies that `_grow` makes: those of its call of
`std::uninitialized_copy(data, one_past_last, new_data)`, which is reached when both
assertions hold and the allocation succeeds. -/
def Vec._grow_copies {T : Type} (self : Vec) (new_len : Nat) (h : Heap T) : Nat :=
  if ¬ (self.cap < (SIZE_MAX - 1) / 2) then 0 else
  let new_cap := max ((2 * self.cap + 1) % (SIZE_MAX + 1)) (max new_len 8)
  if ¬ (new_cap > self.cap) then 0 else
  match h.allocate new_cap with
  | none => 0
  | some _ => self.one_past_last - self.data

/-- The number of element copies that the growth step of one `push_back` makes. -/
def Vec.push_back_copies {T : Type} (self : Vec) (h : Heap T) : Nat :=
  let new_len := (self.len + 1) % (SIZE_MAX + 1)
  if new_len > self.cap then self._grow_copies new_len h else 0

/-- The total number of element copies that growth steps make while `push_back` is called
on each argument of the list in order (the calls end when one does not return normally). -/
def push_back_all_copies {T : Type} : List (Ref T) → Vec → Heap T → Nat
  | [], _, _ => 0
  | x :: xs, v, h =>
    v.push_back_copies h +
      match v.push_back x h with
      | .error _ => 0
      | .ok (v1, h1) => push_back_all_copies xs v1 h1

namespace vector

/-- Member `_construct(void)` of `vector<T>` (file `vector.h`); the data members of
`vector<T>` are those of `Vec<T>`. -/
def _construct (_self : Vec) : Vec :=
  { cap := 0, len := 0, one_past_last := NULL, data := NULL }

/-- Member `_destroy()` of `vector<T>`: the same text as in `Vec<T>`. -/
def _destroy {T : Type} (self : Vec) (h : Heap T) : Result T (Vec × Heap T) :=
  let reset : Vec := { cap := 0, len := 0, one_past_last := NULL, data := NULL }
  if self.data ≠ NULL then
    match Vec.destroy_loop (self.one_past_last - self.data) self.data self.one_past_last h with
    | none => .error (Stop.undefined, self, h)
    | some h1 => .ok (reset, h1.deallocate self.data self.cap)
  else .ok (reset, h)

/-- Member `_grow(size_t new_len)` of `vector<T>`: after `_destroy()` it assigns `data` and
`one_past_last` only. -/
def _grow {T : Type} (self : Vec) (new_len : Nat) (h : Heap T) : Result T (Vec × Heap T) :=
  if ¬ (self.cap < (SIZE_MAX - 1) / 2) then .error (Stop.assert_cap, self, h) else
  let new_cap := max ((2 * self.cap + 1) % (SIZE_MAX + 1)) (max new_len 8)
  match h.allocate new_cap with
  | none => .error (Stop.fatal_grow, self, h)
  | some (new_data, h1) =>
    match uninitialized_copy h1 self.data self.one_past_last new_data with
    | none => .error (Stop.undefined, self, h1)
    | some (new_one_past_last, h2) =>
      match _destroy self h2 with
      | .error e => .error e
      | .ok (s1, h3) =>
        let s2 : Vec := { s1 with data := new_data }
        .ok ({ s2 with one_past_last := new_one_past_last }, h3)

/-- Member `push_back(const T& v)` of `vector<T>`: the element is constructed at
`one_past_last`, which is not advanced. -/
def push_back {T : Type} (self : Vec) (v : Ref T) (h : Heap T) : Result T (Vec × Heap T) :=
  let new_len := (self.len + 1) % (SIZE_MAX + 1)
  match (if new_len > self.cap then _grow self new_len h else .ok (self, h)) with
  | .error e => .error e
  | .ok (s1, h1) =>
    let h2 := h1.construct s1.one_past_last (h1.deref v)
    .ok ({ s1 with len := new_len }, h2)

/-- Call `push_back` of `vector<T>` on each argument of the list in order. -/
def push_back_all {T : Type} : List (Ref T) → Vec → Heap T → Result T (Vec × Heap T)
  | [], v, h => .ok (v, h)
  | x :: xs, v, h =>
    match push_back v x h with
    | .error e => .error e
    | .ok (v1, h1) => push_back_all xs v1 h1

end vector

/-- What the claim of equivalence compares after a run of `push_back` calls: `size()`, the
capacity, `end() - begin()` and the cells below `size()`; `none` when a call did not
return normally. -/
def compare_view {T : Type} : Result T (Vec × Heap T) → Option (Nat × Nat × Nat × List (Slot T))
  | .ok (v, h) => some (v.size, v.cap, v.end_ - v.begin, v.contents h)
  | .error _ => none

/-- The object of `Vec<int> a(4, 7); a.erase(a.begin() + 1);`. -/
def fill_erased : Result Nat (Nat × Vec × Heap Nat) :=
  match Vec.ctor_fill ⟨0, 0, 0, 0⟩ 4 7 (Heap.init never_fails) with
  | .ok (v, h) => v.erase (v.begin + 1) h
  | .error e => .error e

/-- The memory safety view of the result of `erase`: the members of the object, the
allocated blocks `(base, size)`, and the addresses outside every block at which a
constructor or destructor ran. -/
def faults_view {T : Type} :
    Result T (Nat × Vec × Heap T) → Option (Vec × List (Nat × Nat) × List Nat)
  | .ok (_, v, h) => some (v, h.blocks, h.faults)
  | .error _ => none

/-- The lifetime view of the result of `erase`: `size()`, the capacity, and for each cell
of the storage whether it holds a constructed element. -/
def live_view {T : Type} : Result T (Nat × Vec × Heap T) → Option (Nat × Nat × List Bool)
  | .ok (_, v, h) => some (v.size, v.cap, (v.storage h).map Slot.live)
  | .error _ => none

/-- A program state in which every allocation fails. -/
def starved_heap : Heap Nat := Heap.init (fun _ _ => true)

/-- The program state after `Vec<int> a(0, 7);`. -/
def zero_world : World Nat :=
  (World.start never_fails).exec (.ctor_fill ⟨0, 0, 0, 0⟩ 0 7)

/-- The program state after `Vec<int> a; Vec<int> b(a);`. -/
def copy_empty_world : World Nat :=
  ((World.start never_fails).exec (.ctor ⟨0, 0, 0, 0⟩)).exec (.ctor_copy ⟨0, 0, 0, 0⟩ 0)

/-- The program state after `Vec<int> a(2, 7); Vec<int> b(1, 9);`. -/
def pair_world : World Nat :=
  demo_world.exec (.ctor_fill ⟨0, 0, 0, 0⟩ 1 9)

/-- The names of the members that `class Vec` declares (lines 12 to 60 of `Vec.h`):
constructors, destructor, `push_back`, `clear`, `erase`, the operators, `begin`, `end`,
`size`, `empty` and the private `_construct`, `_destroy`, `_grow`, `_swap`. -/
def Vec.declared : List String :=
  ["Vec", "~Vec", "push_back", "clear", "erase", "operator[]", "operator=", "begin", "end",
   "size", "empty", "_construct", "_destroy", "_grow", "_swap"]

/-- The member that the body of move assignment calls: `rhs.swap(*this);`. -/
def move_assign_callee : String := "swap"

/-- The member that the body of the move constructor calls: `rhs._swap(*this);`. -/
def ctor_move_callee : String := "_swap"

/-! ## Heap primitives: which fields they touch -/

section HeapLemmas

variable {T : Type}

@[simp]
theorem construct_next (h : Heap T) (a : Nat) (x : Option T) :
    (h.construct a x).next = h.next := rfl

@[simp]
theorem construct_oom (h : Heap T) (a : Nat) (x : Option T) :
    (h.construct a x).oom = h.oom := rfl

@[simp]
theorem construct_nallocs (h : Heap T) (a : Nat) (x : Option T) :
    (h.construct a x).nallocs = h.nallocs := rfl

@[simp]
theorem construct_mem (h : Heap T) (a : Nat) (x : Option T) (b : Nat) :
    (h.construct a x).mem b = if b = a then ⟨true, x⟩ else h.mem b := rfl

@[simp]
theorem destroy_at_next (h : Heap T) (a : Nat) : (h.destroy_at a).next = h.next := rfl

@[simp]
theorem destroy_at_oom (h : Heap T) (a : Nat) : (h.destroy_at a).oom = h.oom := rfl

@[simp]
theorem destroy_at_nallocs (h : Heap T) (a : Nat) :
    (h.destroy_at a).nallocs = h.nallocs := rfl

@[simp]
theorem destroy_at_mem (h : Heap T) (a b : Nat) :
    (h.destroy_at a).mem b = if b = a then ⟨false, (h.mem a).val⟩ else h.mem b := rfl

@[simp]
theorem deallocate_next (h : Heap T) (p n : Nat) : (h.deallocate p n).next = h.next := rfl

@[simp]
theorem deallocate_oom (h : Heap T) (p n : Nat) : (h.deallocate p n).oom = h.oom := rfl

@[simp]
theorem deallocate_nallocs (h : Heap T) (p n : Nat) :
    (h.deallocate p n).nallocs = h.nallocs := rfl

@[simp]
theorem deallocate_mem (h : Heap T) (p n a : Nat) :
    (h.deallocate p n).mem a = if p ≤ a ∧ a < p + n then Slot.raw else h.mem a := rfl

@[simp]
theorem assign_next (h : Heap T) (a : Nat) (x : T) : (h.assign a x).next = h.next := rfl

@[simp]
theorem assign_oom (h : Heap T) (a : Nat) (x : T) : (h.assign a x).oom = h.oom := rfl

@[simp]
theorem assign_mem (h : Heap T) (a : Nat) (x : T) (b : Nat) :
    (h.assign a x).mem b = if b = a then ⟨(h.mem a).live, some x⟩ else h.mem b := rfl

/-- A successful allocation returns the old `next` and moves `next` past the block. -/
theorem allocate_some {h h1 : Heap T} {n p : Nat} (e : h.allocate n = some (p, h1)) :
    p = h.next ∧ h1.next = h.next + n + 1 ∧ h1.oom = h.oom ∧ h1.nallocs = h.nallocs + 1 ∧
    (∀ a, h1.mem a = if h.next ≤ a ∧ a < h.next + n then Slot.raw else h.mem a) := by
  unfold Heap.allocate at e
  split at e
  · cases e
  · simp only [Option.some.injEq, Prod.mk.injEq] at e
    obtain ⟨rfl, rfl⟩ := e
    exact ⟨rfl, rfl, rfl, rfl, fun _ => rfl⟩

/-- An allocation succeeds when the oracle lets the request through. -/
theorem allocate_ok (h : Heap T) (n : Nat) (e : h.oom h.nallocs n = false) :
    ∃ h1, h.allocate n = some (h.next, h1) := by
  unfold Heap.allocate
  simp [e]

theorem copy_cells_next (n s d : Nat) (h : Heap T) : (copy_cells n s d h).next = h.next := by
  induction n generalizing s d h with
  | zero => rfl
  | succ n ih => simp [copy_cells, ih]

theorem copy_cells_oom (n s d : Nat) (h : Heap T) : (copy_cells n s d h).oom = h.oom := by
  induction n generalizing s d h with
  | zero => rfl
  | succ n ih => simp [copy_cells, ih]

theorem copy_cells_nallocs (n s d : Nat) (h : Heap T) :
    (copy_cells n s d h).nallocs = h.nallocs := by
  induction n generalizing s d h with
  | zero => rfl
  | succ n ih => simp [copy_cells, ih]

/-- Copying `n` cells into a destination that starts at or after the end of the source:
the destination holds live copies of the source values, every other cell is untouched. -/
theorem copy_cells_mem (n s d : Nat) (h : Heap T) (hsd : s + n ≤ d) (a : Nat) :
    (copy_cells n s d h).mem a =
      if d ≤ a ∧ a < d + n then ⟨true, (h.mem (s + (a - d))).val⟩ else h.mem a := by
  induction n generalizing s d h with
  | zero =>
    have h0 : ¬ (d ≤ a ∧ a < d + 0) := by omega
    rw [if_neg h0]
    rfl
  | succ n ih =>
    simp only [copy_cells]
    rw [ih (s + 1) (d + 1) _ (by omega)]
    by_cases h1 : d + 1 ≤ a ∧ a < d + 1 + n
    · have h2 : d ≤ a ∧ a < d + (n + 1) := by omega
      have h3 : s + 1 + (a - (d + 1)) = s + (a - d) := by omega
      have h4 : ¬ (s + (a - d) = d) := by omega
      simp [h1, h2, h3, h4]
    · by_cases h5 : a = d
      · subst h5
        simp [Heap.read]
      · have h2 : ¬ (d ≤ a ∧ a < d + (n + 1)) := by omega
        simp [h1, h2, h5]

theorem fill_cells_next (n d : Nat) (x : T) (h : Heap T) : (fill_cells n d x h).next = h.next := by
  induction n generalizing d h with
  | zero => rfl
  | succ n ih => simp [fill_cells, ih]

theorem fill_cells_oom (n d : Nat) (x : T) (h : Heap T) : (fill_cells n d x h).oom = h.oom := by
  induction n generalizing d h with
  | zero => rfl
  | succ n ih => simp [fill_cells, ih]

/-- Filling `n` cells from `d`: they hold live copies of `x`, every other cell is untouched. -/
theorem fill_cells_mem (n d : Nat) (x : T) (h : Heap T) (a : Nat) :
    (fill_cells n d x h).mem a = if d ≤ a ∧ a < d + n then ⟨true, some x⟩ else h.mem a := by
  induction n generalizing d h with
  | zero =>
    have h0 : ¬ (d ≤ a ∧ a < d + 0) := by omega
    rw [if_neg h0]
    rfl
  | succ n ih =>
    simp only [fill_cells]
    rw [ih (d + 1)]
    by_cases h1 : d + 1 ≤ a ∧ a < d + 1 + n
    · have h2 : d ≤ a ∧ a < d + (n + 1) := by omega
      simp [h1, h2]
    · by_cases h5 : a = d
      · subst h5
        simp
      · have h2 : ¬ (d ≤ a ∧ a < d + (n + 1)) := by omega
        simp [h1, h2, h5]

/-- The loop of `_destroy` started `fuel` cells above `data` meets `data`; it keeps `next`,
the oracle and the allocation count, and every cell outside `[data, data + fuel)`. -/
theorem destroy_loop_spec (fuel data : Nat) (h : Heap T) :
    ∃ h1, Vec.destroy_loop fuel data (data + fuel) h = some h1 ∧ h1.next = h.next ∧
      h1.oom = h.oom ∧ h1.nallocs = h.nallocs ∧
      ∀ a, h1.mem a = if data ≤ a ∧ a < data + fuel then ⟨false, (h.mem a).val⟩ else h.mem a := by
  induction fuel generalizing h with
  | zero =>
    refine ⟨h, by simp [Vec.destroy_loop], rfl, rfl, rfl, fun a => ?_⟩
    have h0 : ¬ (data ≤ a ∧ a < data + 0) := by omega
    rw [if_neg h0]
  | succ n ih =>
    obtain ⟨h1, e1, e2, e3, e4, e5⟩ := ih (h.destroy_at (data + n))
    refine ⟨h1, ?_, by simpa using e2, by simpa using e3, by simpa using e4, ?_⟩
    · have : data + (n + 1) ≠ data := by omega
      simp only [Vec.destroy_loop, this, ne_eq, not_false_eq_true, if_true]
      have e : data + (n + 1) - 1 = data + n := by omega
      rw [e]
      exact e1
    · intro a
      rw [e5 a]
      by_cases h1 : data ≤ a ∧ a < data + n
      · have h2 : data ≤ a ∧ a < data + (n + 1) := by omega
        have h3 : a ≠ data + n := by omega
        simp [h1, h2, h3]
      · by_cases h3 : a = data + n
        · subst h3
          simp
        · have h2 : ¬ (data ≤ a ∧ a < data + (n + 1)) := by omega
          simp [h1, h2, h3]

end HeapLemmas

/-! ## Member functions: what a normal return tells -/

section Members

variable {T : Type}

theorem destroy_loop_some {fuel data it : Nat} {h h1 : Heap T}
    (e : Vec.destroy_loop fuel data it h = some h1) :
    h1.next = h.next ∧ h1.oom = h.oom ∧ h1.nallocs = h.nallocs := by
  induction fuel generalizing it h with
  | zero =>
    simp only [Vec.destroy_loop] at e
    split at e
    · cases e
    · cases e; exact ⟨rfl, rfl, rfl⟩
  | succ n ih =>
    simp only [Vec.destroy_loop] at e
    split at e
    · have := ih e
      simpa using this
    · cases e; exact ⟨rfl, rfl, rfl⟩

theorem erase_loop_some {fuel i j : Nat} {v : Vec} {h h1 : Heap T}
    (e : Vec.erase_loop fuel v i h = some (j, h1)) :
    h1.next = h.next ∧ h1.oom = h.oom ∧ h1.nallocs = h.nallocs := by
  induction fuel generalizing i h with
  | zero =>
    simp only [Vec.erase_loop] at e
    split at e
    · cases e
    · cases e; exact ⟨rfl, rfl, rfl⟩
  | succ n ih =>
    simp only [Vec.erase_loop] at e
    split at e
    · have := ih e
      simpa using this
    · cases e; exact ⟨rfl, rfl, rfl⟩

/-- A normal return of `_destroy` leaves the object in the empty state. -/
theorem _destroy_ok {v v1 : Vec} {h h1 : Heap T} (e : v._destroy h = .ok (v1, h1)) :
    v1 = ⟨0, 0, 0, 0⟩ ∧ h1.next = h.next ∧ h1.oom = h.oom ∧ h1.nallocs = h.nallocs := by
  unfold Vec._destroy at e
  split at e
  · split at e
    · cases e
    · rename_i h2 e2
      cases e
      have := destroy_loop_some e2
      exact ⟨rfl, by simpa using this⟩
  · cases e
    exact ⟨rfl, rfl, rfl, rfl⟩

/-- On an object whose `one_past_last` is not below `data`, `_destroy` returns normally: the
elements are destroyed and the block is deallocated; every cell outside
`[data, one_past_last)` and outside the block `[data, data + cap)` is untouched, and the
cells of the block of an object with storage are indeterminate afterwards. -/
theorem _destroy_spec (v : Vec) (h : Heap T) (hd : v.data ≤ v.one_past_last) :
    ∃ h1, v._destroy h = .ok (⟨0, 0, 0, 0⟩, h1) ∧ h1.next = h.next ∧ h1.oom = h.oom ∧
      h1.nallocs = h.nallocs ∧
      (∀ a, ¬ (v.data ≤ a ∧ a < v.one_past_last) → ¬ (v.data ≤ a ∧ a < v.data + v.cap) →
        h1.mem a = h.mem a) ∧
      (v.data ≠ NULL → ∀ a, v.data ≤ a → a < v.data + v.cap → h1.mem a = Slot.raw) := by
  unfold Vec._destroy
  by_cases h0 : v.data = NULL
  · exact ⟨h, by rw [if_neg (not_not.mpr h0)], rfl, rfl, rfl, fun _ _ _ => rfl,
      fun hn => absurd h0 hn⟩
  · obtain ⟨h1, e1, e2, e3, e4, e5⟩ := destroy_loop_spec (v.one_past_last - v.data) v.data h
    have e : v.data + (v.one_past_last - v.data) = v.one_past_last := by omega
    rw [e] at e1 e5
    refine ⟨h1.deallocate v.data v.cap, by rw [if_pos h0, e1], by simpa using e2,
      by simpa using e3, by simpa using e4, fun a ha hb => ?_, fun _ a ha hb => ?_⟩
    · rw [deallocate_mem, if_neg hb, e5 a, if_neg ha]
    · rw [deallocate_mem, if_pos ⟨ha, hb⟩]

/-- A normal return of `_grow`: the members and the new `next`. -/
theorem _grow_ok {v v1 : Vec} {n : Nat} {h h1 : Heap T} (e : v._grow n h = .ok (v1, h1)) :
    v.cap < (SIZE_MAX - 1) / 2 ∧
    v1 = ⟨max (2 * v.cap + 1) (max n 8), n, h.next + n, h.next⟩ ∧
    h1.next = h.next + max (2 * v.cap + 1) (max n 8) + 1 ∧ h1.oom = h.oom ∧
    h1.nallocs = h.nallocs + 1 := by
  unfold Vec._grow at e
  split at e
  · cases e
  · rename_i hc
    have hc1 : v.cap < (SIZE_MAX - 1) / 2 := by simpa using hc
    have hm : (2 * v.cap + 1) % (SIZE_MAX + 1) = 2 * v.cap + 1 := by
      apply Nat.mod_eq_of_lt
      simp only [SIZE_MAX] at hc1 ⊢
      omega
    simp only [hm] at e
    split at e
    · cases e
    · split at e
      · cases e
      · rename_i p h2 e2
        obtain ⟨rfl, a2, a3, a4, _⟩ := allocate_some e2
        split at e
        · cases e
        · rename_i q h3 e3
          unfold uninitialized_copy at e3
          split at e3
          · simp only [Option.some.injEq, Prod.mk.injEq] at e3
            obtain ⟨_, rfl⟩ := e3
            split at e
            · cases e
            · rename_i v4 h4 e4
              obtain ⟨_, b2, b3, b4⟩ := _destroy_ok e4
              simp only [Except.ok.injEq, Prod.mk.injEq] at e
              obtain ⟨rfl, rfl⟩ := e
              refine ⟨hc1, rfl, ?_, ?_, ?_⟩
              · rw [b2, copy_cells_next, a2]
              · rw [b3, copy_cells_oom, a3]
              · rw [b4, copy_cells_nallocs, a4]
          · cases e3

/-- A normal return of `push_back` without `size_t` wrap-around of `len + 1`: the new
members, in terms of whether the call grew the storage. -/
theorem push_back_ok {v v1 : Vec} {x : Ref T} {h h1 : Heap T} (hl : v.len < SIZE_MAX)
    (e : v.push_back x h = .ok (v1, h1)) :
    h1.oom = h.oom ∧
    ((v.len + 1 > v.cap ∧ v.cap < (SIZE_MAX - 1) / 2 ∧
        v1 = ⟨max (2 * v.cap + 1) (max (v.len + 1) 8), v.len + 1, h.next + (v.len + 1), h.next⟩ ∧
        h1.next = h.next + max (2 * v.cap + 1) (max (v.len + 1) 8) + 1) ∨
     (v.len + 1 ≤ v.cap ∧ v1 = ⟨v.cap, v.len + 1, v.data + (v.len + 1), v.data⟩ ∧
        h1.next = h.next)) := by
  have hm : (v.len + 1) % (SIZE_MAX + 1) = v.len + 1 := Nat.mod_eq_of_lt (by omega)
  unfold Vec.push_back at e
  simp only [hm] at e
  by_cases hg : v.len + 1 > v.cap
  · simp only [hg, if_true] at e
    split at e
    · cases e
    · rename_i v2 h2 e2
      obtain ⟨c1, rfl, c3, c4, _⟩ := _grow_ok e2
      simp only [Except.ok.injEq, Prod.mk.injEq] at e
      obtain ⟨rfl, rfl⟩ := e
      exact ⟨by simpa using c4, Or.inl ⟨hg, c1, rfl, by simpa using c3⟩⟩
  · simp only [hg, if_false] at e
    simp only [Except.ok.injEq, Prod.mk.injEq] at e
    obtain ⟨rfl, rfl⟩ := e
    exact ⟨rfl, Or.inr ⟨by omega, rfl, rfl⟩⟩

/-- A normal return of `_construct(size_t, const T&)`. -/
theorem _construct_fill_ok {raw v1 : Vec} {n : Nat} {x : T} {h h1 : Heap T}
    (e : raw._construct_fill n x h = .ok (v1, h1)) :
    v1 = ⟨n, n, h.next + n, h.next⟩ ∧ h1.next = h.next + n + 1 ∧ h1.oom = h.oom := by
  unfold Vec._construct_fill at e
  split at e
  · cases e
  · rename_i p h2 e2
    obtain ⟨rfl, a2, a3, _, _⟩ := allocate_some e2
    simp only [uninitialized_fill] at e
    split at e
    · cases e
    · rename_i h3 e3
      split at e3
      · simp only [Option.some.injEq] at e3
        subst e3
        simp only [Except.ok.injEq, Prod.mk.injEq] at e
        obtain ⟨rfl, rfl⟩ := e
        exact ⟨rfl, by rw [fill_cells_next, a2], by rw [fill_cells_oom, a3]⟩
      · cases e3

/-- A normal return of `_construct(const_iterator, const_iterator)`. -/
theorem _construct_range_ok {raw v1 : Vec} {s t : Nat} {h h1 : Heap T}
    (e : raw._construct_range s t h = .ok (v1, h1)) :
    s ≤ t ∧ v1 = ⟨t - s, t - s, h.next + (t - s), h.next⟩ ∧ h1.next = h.next + (t - s) + 1 ∧
      h1.oom = h.oom := by
  unfold Vec._construct_range at e
  split at e
  · cases e
  · rename_i hst
    simp only at e
    split at e
    · cases e
    · rename_i p h2 e2
      obtain ⟨rfl, a2, a3, _, _⟩ := allocate_some e2
      simp only [uninitialized_copy] at e
      split at e
      · cases e
      · rename_i q h3 e3
        split at e3
        · simp only [Option.some.injEq, Prod.mk.injEq] at e3
          obtain ⟨rfl, rfl⟩ := e3
          simp only [Except.ok.injEq, Prod.mk.injEq] at e
          obtain ⟨rfl, rfl⟩ := e
          exact ⟨by omega, rfl, by rw [copy_cells_next, a2], by rw [copy_cells_oom, a3]⟩
        · cases e3

/-- A normal return of `erase`. -/
theorem erase_ok {v v1 : Vec} {pos r : Nat} {h h1 : Heap T}
    (e : v.erase pos h = .ok (r, v1, h1)) :
    r = pos ∧ v1 = ⟨v.cap, v.len - 1, v.one_past_last - 1, v.data⟩ ∧ h1.next = h.next ∧
      h1.oom = h.oom := by
  unfold Vec.erase at e
  split at e
  · cases e
  · rename_i i h2 e2
    obtain ⟨a1, a2, _⟩ := erase_loop_some e2
    simp only [Except.ok.injEq, Prod.mk.injEq] at e
    obtain ⟨rfl, rfl, rfl⟩ := e
    exact ⟨rfl, rfl, by simpa using a1, by simpa using a2⟩

end Members

/-! ## The class invariant holds in every reachable state -/

section Invariant

variable {T : Type}

theorem Inv.mono {v : Vec} {h h1 : Heap T} (hi : Inv v h) (hn : h.next ≤ h1.next) : Inv v h1 := by
  obtain ⟨a, b, c, d⟩ := hi
  exact ⟨a, b, by omega, d⟩

theorem Inv.zero {h : Heap T} (hn : 1 ≤ h.next) : Inv ⟨0, 0, 0, 0⟩ h :=
  ⟨rfl, Nat.le_refl _, by simpa using hn, Nat.zero_le _⟩

/-- Member `push_back` keeps the class invariant, also when `len + 1` wraps around. -/
theorem push_back_inv {v v1 : Vec} {x : Ref T} {h h1 : Heap T} (hi : Inv v h)
    (e : v.push_back x h = .ok (v1, h1)) : Inv v1 h1 ∧ h.next ≤ h1.next := by
  obtain ⟨a, b, c, d⟩ := hi
  by_cases hl : v.len < SIZE_MAX
  · obtain ⟨_, h2 | h2⟩ := push_back_ok hl e
    · obtain ⟨g1, g2, rfl, g4⟩ := h2
      refine ⟨⟨rfl, ?_, ?_, ?_⟩, by omega⟩
      · exact le_max_of_le_right (le_max_left _ _)
      · simp only [g4]; omega
      · simp only [SIZE_MAX] at g2 hl ⊢
        omega
    · obtain ⟨g1, rfl, g3⟩ := h2
      exact ⟨⟨rfl, g1, by simpa [g3] using c, d⟩, by omega⟩
  · have hl2 : v.len = SIZE_MAX := by omega
    have hm : (v.len + 1) % (SIZE_MAX + 1) = 0 := by rw [hl2]; exact Nat.mod_self _
    unfold Vec.push_back at e
    simp only [hm, gt_iff_lt, Nat.not_lt_zero, if_false] at e
    simp only [Except.ok.injEq, Prod.mk.injEq] at e
    obtain ⟨rfl, rfl⟩ := e
    exact ⟨⟨rfl, Nat.zero_le _, by simpa using c, d⟩, by simp⟩

theorem World.put_inv {w w1 : World T} {i : Nat} {r : Result T (Vec × Heap T)} (hw : w.Inv)
    (hr : ∀ v1 h1, r = .ok (v1, h1) → VecCpp.Inv v1 h1 ∧ w.heap.next ≤ h1.next)
    (e : w.put i r = some w1) : w1.Inv := by
  unfold World.put at e
  split at e
  · rename_i v1 h1
    obtain ⟨a, b⟩ := hr v1 h1 rfl
    cases e
    refine ⟨Nat.le_trans hw.1 b, fun u hu => ?_⟩
    rcases List.mem_or_eq_of_mem_set hu with hu | rfl
    · exact (hw.2 u hu).mono b
    · exact a
  · cases e

theorem World.add_inv {w w1 : World T} {r : Result T (Vec × Heap T)} (hw : w.Inv)
    (hr : ∀ v1 h1, r = .ok (v1, h1) → VecCpp.Inv v1 h1 ∧ w.heap.next ≤ h1.next)
    (e : w.add r = some w1) : w1.Inv := by
  unfold World.add at e
  split at e
  · rename_i v1 h1
    obtain ⟨a, b⟩ := hr v1 h1 rfl
    cases e
    refine ⟨Nat.le_trans hw.1 b, fun u hu => ?_⟩
    rcases List.mem_append.mp hu with hu | hu
    · exact (hw.2 u hu).mono b
    · rw [List.mem_singleton] at hu
      subst hu
      exact a
  · cases e

/-- Copy construction from an object that satisfies the invariant gives one that does. -/
theorem _construct_range_inv {raw v v1 : Vec} {h0 h h1 : Heap T} (hi : Inv v h0)
    (e : raw._construct_range v.begin v.end_ h = .ok (v1, h1)) :
    Inv v1 h1 ∧ h.next ≤ h1.next := by
  obtain ⟨a, b, c, d⟩ := hi
  obtain ⟨_, rfl, g3, _⟩ := _construct_range_ok e
  simp only [Vec.begin, Vec.end_] at g3 ⊢
  refine ⟨⟨rfl, Nat.le_refl _, by simp only [g3]; omega, ?_⟩, by omega⟩
  show v.one_past_last - v.data ≤ SIZE_MAX
  omega

/-- Every public operation keeps the invariant of the program state. -/
theorem World.step_inv {w w1 : World T} (op : Op T) (hw : w.Inv) (e : w.step op = some w1) :
    w1.Inv := by
  cases op with
  | ctor raw =>
    simp only [World.step, Option.some.injEq] at e
    subst e
    refine ⟨hw.1, fun u hu => ?_⟩
    rcases List.mem_append.mp hu with hu | hu
    · exact hw.2 u hu
    · rw [List.mem_singleton] at hu
      subst hu
      exact Inv.zero hw.1
  | ctor_fill raw n x =>
    simp only [World.step] at e
    split at e
    · rename_i hn
      refine World.add_inv hw (fun v1 h1 e1 => ?_) e
      obtain ⟨rfl, g2, _⟩ := _construct_fill_ok e1
      exact ⟨⟨rfl, Nat.le_refl _, by simp only [g2]; omega, hn⟩, by omega⟩
    · cases e
  | ctor_copy raw j =>
    simp only [World.step] at e
    split at e
    · cases e
    · rename_i vj ej
      exact World.add_inv hw (fun v1 h1 e1 => _construct_range_inv (hw.2 vj (List.getElem?_mem ej)) e1) e
  | ctor_move raw j =>
    simp only [World.step] at e
    split at e
    · cases e
    · rename_i vj ej
      simp only [Option.some.injEq] at e
      subst e
      refine ⟨hw.1, fun u hu => ?_⟩
      rcases List.mem_append.mp hu with hu | hu
      · rcases List.mem_or_eq_of_mem_set hu with hu | rfl
        · exact hw.2 u hu
        · exact Inv.zero hw.1
      · rw [List.mem_singleton] at hu
        subst hu
        exact hw.2 vj (List.getElem?_mem ej)
  | push_back i x =>
    simp only [World.step] at e
    split at e
    · cases e
    · rename_i v ev
      exact World.put_inv hw (fun v1 h1 e1 => push_back_inv (hw.2 v (List.getElem?_mem ev)) e1) e
  | erase i k =>
    simp only [World.step] at e
    split at e
    · cases e
    · rename_i v ev
      split at e
      · rename_i hk
        split at e
        · rename_i r v1 h1 e1
          obtain ⟨_, rfl, g3, _⟩ := erase_ok e1
          simp only [Option.some.injEq] at e
          subst e
          obtain ⟨a, b, c, d⟩ := hw.2 v (List.getElem?_mem ev)
          simp only [Vec.size] at hk
          refine ⟨by simpa [g3] using hw.1, fun u hu => ?_⟩
          rcases List.mem_or_eq_of_mem_set hu with hu | rfl
          · exact (hw.2 u hu).mono (by simp [g3])
          · exact ⟨by simp only; omega, by simp only; omega, by simpa [g3] using c, d⟩
        · cases e
      · cases e
  | clear i =>
    simp only [World.step] at e
    split at e
    · cases e
    · rename_i v ev
      refine World.put_inv hw (fun v1 h1 e1 => ?_) e
      obtain ⟨rfl, g2, _⟩ := _destroy_ok e1
      exact ⟨Inv.zero (by simpa [g2] using hw.1), by simp [g2]⟩
  | store i k x =>
    simp only [World.step] at e
    split at e
    · cases e
    · split at e
      · simp only [Option.some.injEq] at e
        subst e
        exact ⟨hw.1, fun u hu => (hw.2 u hu).mono (by simp)⟩
      · cases e
  | copy_assign i j =>
    simp only [World.step] at e
    split at e
    · rename_i vi vj ei ej
      refine World.put_inv hw (fun v1 h1 e1 => ?_) e
      unfold Vec.copy_assign at e1
      split at e1
      · split at e1
        · cases e1
        · rename_i s1 h2 e2
          obtain ⟨_, g2, _⟩ := _destroy_ok e2
          have := _construct_range_inv (hw.2 vj (List.getElem?_mem ej)) e1
          exact ⟨this.1, by omega⟩
      · simp only [Except.ok.injEq, Prod.mk.injEq] at e1
        obtain ⟨rfl, rfl⟩ := e1
        exact ⟨hw.2 _ (List.getElem?_mem ei), Nat.le_refl _⟩
    · cases e
  | move_assign i j =>
    simp only [World.step] at e
    split at e
    · rename_i vi vj ei ej
      simp only [Option.some.injEq] at e
      subst e
      refine ⟨hw.1, fun u hu => ?_⟩
      rcases List.mem_or_eq_of_mem_set hu with hu | rfl
      · rcases List.mem_or_eq_of_mem_set hu with hu | rfl
        · exact hw.2 u hu
        · exact hw.2 _ (List.getElem?_mem ei)
      · exact hw.2 _ (List.getElem?_mem ej)
    · cases e

/-- Every reachable program state satisfies the invariant. -/
theorem Reachable.inv {w : World T} (hr : Reachable w) : w.Inv := by
  induction hr with
  | init oom => exact ⟨Nat.le_refl _, fun v hv => by cases hv⟩
  | step op _ e ih => exact World.step_inv op ih e

end Invariant

/-! ## Member functions: when they return normally, and what they leave in memory -/

section Specs

variable {T : Type}

/-- The growth step on an object that satisfies the invariant, below the capacity bound and
with an allocator that serves the request: it returns normally, the new block starts with
live copies of the old elements followed by uninitialised cells, and no cell outside the
old and the new block changes. -/
theorem _grow_spec (v : Vec) (n : Nat) (h : Heap T) (hi : Inv v h)
    (hc : v.cap < (SIZE_MAX - 1) / 2)
    (ha : h.oom h.nallocs (max (2 * v.cap + 1) (max n 8)) = false) :
    ∃ h1, v._grow n h = .ok (⟨max (2 * v.cap + 1) (max n 8), n, h.next + n, h.next⟩, h1) ∧
      h1.next = h.next + max (2 * v.cap + 1) (max n 8) + 1 ∧ h1.oom = h.oom ∧
      h1.nallocs = h.nallocs + 1 ∧
      (∀ i, i < v.len → h1.mem (h.next + i) = ⟨true, (h.mem (v.data + i)).val⟩) ∧
      (∀ a, h.next + v.len ≤ a → a < h.next + max (2 * v.cap + 1) (max n 8) →
        h1.mem a = Slot.raw) ∧
      (∀ a, (a < h.next ∨ h.next + max (2 * v.cap + 1) (max n 8) ≤ a) →
        ¬ (v.data ≤ a ∧ a < v.data + v.cap) → h1.mem a = h.mem a) ∧
      (v.data ≠ NULL → ∀ a, v.data ≤ a → a < v.data + v.cap → h1.mem a = Slot.raw) := by
  obtain ⟨i1, i2, i3, i4⟩ := hi
  have hm : (2 * v.cap + 1) % (SIZE_MAX + 1) = 2 * v.cap + 1 := by
    apply Nat.mod_eq_of_lt
    simp only [SIZE_MAX] at hc ⊢
    omega
  have hgt : max (2 * v.cap + 1) (max n 8) > v.cap :=
    Nat.lt_of_lt_of_le (by omega) (le_max_left _ _)
  obtain ⟨ha1, ea⟩ := allocate_ok h _ ha
  obtain ⟨_, a2, a3, a4, a5⟩ := allocate_some ea
  have hd : v.data ≤ v.one_past_last := by omega
  obtain ⟨h3, d1, d2, d3, d4, d5, d6⟩ :=
    _destroy_spec v (copy_cells (v.one_past_last - v.data) v.data h.next ha1) hd
  have hlen : v.one_past_last - v.data = v.len := by omega
  refine ⟨h3, ?_, ?_, ?_, ?_, ?_, ?_, ?_, d6⟩
  · unfold Vec._grow
    simp only [hc, not_true_eq_false, if_false, hm, hgt, ea, uninitialized_copy, hd, if_true, d1]
  · rw [d2, copy_cells_next, a2]
  · rw [d3, copy_cells_oom, a3]
  · rw [d4, copy_cells_nallocs, a4]
  · intro i hi
    rw [d5 _ (by omega) (by omega), hlen, copy_cells_mem _ _ _ _ (by omega), if_pos (by omega), a5,
      if_neg (by omega)]
    congr 3
    omega
  · intro a h1 h2
    rw [d5 _ (by omega) (by omega), hlen, copy_cells_mem _ _ _ _ (by omega), if_neg (by omega), a5,
      if_pos ⟨by omega, h2⟩]
  · intro a h1 h2
    rw [d5 _ (by omega) (by omega), hlen, copy_cells_mem _ _ _ _ (by omega), if_neg (by omega), a5,
      if_neg (by omega)]

/-- One `push_back` of an object outside the free store on an object that holds `xs`: it
returns normally whenever it needs no growth, or the capacity is below the bound and the
allocator serves the request; the object then holds `xs` followed by the new value. -/
theorem push_back_spec (v : Vec) (x : T) (h : Heap T) (xs : List T) (hi : Inv v h)
    (hx : Holds v h xs) (hl : v.len < SIZE_MAX)
    (hs : v.len + 1 ≤ v.cap ∨ (v.cap < (SIZE_MAX - 1) / 2 ∧
      h.oom h.nallocs (max (2 * v.cap + 1) (max (v.len + 1) 8)) = false)) :
    ∃ v1 h1, v.push_back (.obj x) h = .ok (v1, h1) ∧ Inv v1 h1 ∧ Holds v1 h1 (xs ++ [x]) ∧
      h1.oom = h.oom ∧
      v1.cap = (if v.len + 1 > v.cap then max (2 * v.cap + 1) (max (v.len + 1) 8) else v.cap) := by
  have hm : (v.len + 1) % (SIZE_MAX + 1) = v.len + 1 := Nat.mod_eq_of_lt (by omega)
  obtain ⟨x1, x2⟩ := hx
  simp only [Vec.size] at x1
  by_cases hg : v.len + 1 > v.cap
  · have hs2 := hs.resolve_left (by omega)
    obtain ⟨h1, g1, g2, g3, g4, g5, g6, g7, _⟩ := _grow_spec v (v.len + 1) h hi hs2.1 hs2.2
    have e : v.push_back (.obj x) h = .ok (⟨max (2 * v.cap + 1) (max (v.len + 1) 8), v.len + 1,
        h.next + (v.len + 1), h.next⟩, h1.construct (h.next + (v.len + 1) - 1) (some x)) := by
      unfold Vec.push_back
      simp only [hm, hg, if_true, g1, Heap.deref]
    refine ⟨_, _, e, (push_back_inv hi e).1, ⟨by simp [Vec.size, x1], fun j hj => ?_⟩,
      by simpa using g3, by simp [hg]⟩
    simp only [List.length_append, List.length_singleton] at hj
    simp only [Vec.index, construct_mem]
    by_cases hj2 : j = xs.length
    · subst hj2
      rw [if_pos (by omega)]
      simp
    · rw [if_neg (by omega), g5 j (by omega), List.getElem?_append_left (by omega)]
      have := x2 j (by omega)
      simp only [Vec.index] at this
      rw [this]
  · have e : v.push_back (.obj x) h = .ok (⟨v.cap, v.len + 1, v.data + (v.len + 1), v.data⟩,
        h.construct (v.data + (v.len + 1) - 1) (some x)) := by
      unfold Vec.push_back
      simp only [hm, hg, if_false, Heap.deref]
    refine ⟨_, _, e, (push_back_inv hi e).1, ⟨by simp [Vec.size, x1], fun j hj => ?_⟩,
      rfl, by simp [hg]⟩
    simp only [List.length_append, List.length_singleton] at hj
    simp only [Vec.index, construct_mem]
    by_cases hj2 : j = xs.length
    · subst hj2
      rw [if_pos (by omega)]
      simp
    · rw [if_neg (by omega), List.getElem?_append_left (by omega)]
      exact x2 j (by omega)

/-- A `push_back` that has to grow at a capacity not below the bound stops at the first
assertion of `_grow`, leaving the object and the heap as they were. -/
theorem push_back_assert (v : Vec) (x : Ref T) (h : Heap T) (hl : v.len < SIZE_MAX)
    (hg : v.len + 1 > v.cap) (hc : ¬ v.cap < (SIZE_MAX - 1) / 2) :
    v.push_back x h = .error (Stop.assert_cap, v, h) := by
  have hm : (v.len + 1) % (SIZE_MAX + 1) = v.len + 1 := Nat.mod_eq_of_lt (by omega)
  unfold Vec.push_back
  simp only [hm, hg, if_true]
  unfold Vec._grow
  simp only [hc, not_false_eq_true, if_true]

theorem push_back_all_append (a b : List (Ref T)) (v : Vec) (h : Heap T) :
    push_back_all (a ++ b) v h =
      match push_back_all a v h with
      | .error e => .error e
      | .ok (v1, h1) => push_back_all b v1 h1 := by
  induction a generalizing v h with
  | nil => rfl
  | cons x a ih =>
    simp only [List.cons_append, push_back_all]
    cases v.push_back x h with
    | error e => rfl
    | ok r => exact ih r.1 r.2

/-- Pushing values while the final length stays within the capacity bound: every call
returns normally and the object holds the old elements followed by the new values. -/
theorem push_back_all_bound (vals : List T) (v : Vec) (h : Heap T) (xs : List T)
    (hi : Inv v h) (hx : Holds v h xs) (hoom : ∀ k n, h.oom k n = false)
    (hb : xs.length + vals.length ≤ (SIZE_MAX - 1) / 2) :
    ∃ v1 h1, push_back_all (vals.map Ref.obj) v h = .ok (v1, h1) ∧ Inv v1 h1 ∧
      Holds v1 h1 (xs ++ vals) ∧ h1.oom = h.oom := by
  induction vals generalizing v h xs with
  | nil => exact ⟨v, h, rfl, hi, by simpa using hx, rfl⟩
  | cons x vals ih =>
    have hlen : v.len = xs.length := hx.1
    simp only [List.length_cons] at hb
    have hM : (SIZE_MAX - 1) / 2 < SIZE_MAX := by simp [SIZE_MAX]
    obtain ⟨v1, h1, e1, i1, x1, o1, _⟩ := push_back_spec v x h xs hi hx (by omega) (by
      by_cases hg : v.len + 1 ≤ v.cap
      · exact Or.inl hg
      · exact Or.inr ⟨by have := hi.2.1; omega, hoom _ _⟩)
    obtain ⟨v2, h2, e2, i2, x2, o2⟩ := ih v1 h1 (xs ++ [x]) i1 x1
      (fun k n => by rw [o1]; exact hoom k n)
      (by simp only [List.length_append, List.length_singleton]; omega)
    refine ⟨v2, h2, ?_, i2, by simpa using x2, by rw [o2, o1]⟩
    simp only [List.map_cons, push_back_all, e1, e2]

/-- The fill constructor with an allocator that serves the request: it returns normally,
the new block holds `n` live copies of `x`, and no other cell changes. -/
theorem _construct_fill_spec (raw : Vec) (n : Nat) (x : T) (h : Heap T)
    (ha : h.oom h.nallocs n = false) :
    ∃ h1, raw._construct_fill n x h = .ok (⟨n, n, h.next + n, h.next⟩, h1) ∧
      h1.next = h.next + n + 1 ∧ h1.oom = h.oom ∧
      ∀ a, h1.mem a = if h.next ≤ a ∧ a < h.next + n then ⟨true, some x⟩ else h.mem a := by
  obtain ⟨ha1, ea⟩ := allocate_ok h n ha
  obtain ⟨_, a2, a3, _, a5⟩ := allocate_some ea
  have e : h.next + n - h.next = n := by omega
  refine ⟨fill_cells n h.next x ha1, ?_, by rw [fill_cells_next, a2],
    by rw [fill_cells_oom, a3], fun a => ?_⟩
  · unfold Vec._construct_fill
    simp only [ea, uninitialized_fill, Nat.le_add_right, if_true, e]
  · rw [fill_cells_mem]
    by_cases hin : h.next ≤ a ∧ a < h.next + n
    · rw [if_pos hin, if_pos hin]
    · rw [if_neg hin, if_neg hin, a5, if_neg hin]

/-- Construction from a range that lies below the free part of the heap, with an allocator
that serves the request: it returns normally, the new block holds live copies of the values
of the range in order, and no other cell changes. -/
theorem _construct_range_spec (raw : Vec) (s t : Nat) (h : Heap T) (hst : s ≤ t)
    (hfree : t ≤ h.next) (ha : h.oom h.nallocs (t - s) = false) :
    ∃ h1, raw._construct_range s t h = .ok (⟨t - s, t - s, h.next + (t - s), h.next⟩, h1) ∧
      h1.next = h.next + (t - s) + 1 ∧ h1.oom = h.oom ∧
      ∀ a, h1.mem a =
        if h.next ≤ a ∧ a < h.next + (t - s) then ⟨true, (h.mem (s + (a - h.next))).val⟩
        else h.mem a := by
  obtain ⟨ha1, ea⟩ := allocate_ok h (t - s) ha
  obtain ⟨_, a2, a3, _, a5⟩ := allocate_some ea
  refine ⟨copy_cells (t - s) s h.next ha1, ?_, by rw [copy_cells_next, a2],
    by rw [copy_cells_oom, a3], fun a => ?_⟩
  · unfold Vec._construct_range
    simp only [Nat.not_lt.mpr hst, if_false, ea, uninitialized_copy, hst, if_true]
  · rw [copy_cells_mem _ _ _ _ (by omega)]
    by_cases hin : h.next ≤ a ∧ a < h.next + (t - s)
    · rw [if_pos hin, if_pos hin, a5, if_neg (by omega)]
    · rw [if_neg hin, if_neg hin, a5, if_neg hin]

/-- The loop of `erase` started `fuel` cells below `one_past_last - 1` meets it. -/
theorem erase_loop_meets (fuel : Nat) (v : Vec) (i : Nat) (h : Heap T)
    (hf : i + fuel = v.one_past_last - 1) :
    ∃ h1, Vec.erase_loop fuel v i h = some (v.one_past_last - 1, h1) := by
  induction fuel generalizing i h with
  | zero =>
    refine ⟨h, ?_⟩
    have : i = v.one_past_last - 1 := by omega
    simp only [Vec.erase_loop, this, ne_eq, not_true_eq_false, if_false]
  | succ n ih =>
    have hne : i ≠ v.one_past_last - 1 := by omega
    obtain ⟨h1, e1⟩ := ih (i + 1)
      ((h.destroy_at i).construct v.one_past_last ((h.destroy_at i).read (i + 1))) (by omega)
    exact ⟨h1, by simp only [Vec.erase_loop, hne, ne_eq, not_false_eq_true, if_true, e1]⟩

/-- At a position below `one_past_last`, `erase` returns normally. -/
theorem erase_spec (v : Vec) (pos : Nat) (h : Heap T) (hp : pos < v.one_past_last) :
    ∃ h1, v.erase pos h = .ok (pos, ⟨v.cap, v.len - 1, v.one_past_last - 1, v.data⟩, h1) := by
  obtain ⟨h1, e1⟩ := erase_loop_meets (v.one_past_last - 1 - pos) v pos h (by omega)
  exact ⟨h1.destroy_at (v.one_past_last - 1), by simp only [Vec.erase, e1]⟩

/-- The cells after the loop of `erase` started `fuel` cells below `one_past_last - 1`: the
cells it walked over are destroyed in place, the cell at `one_past_last` holds a copy of the
last element when the loop ran at all, and no other cell changes. -/
theorem erase_loop_cells (fuel : Nat) (v : Vec) (i : Nat) (h : Heap T)
    (hf : i + fuel + 1 = v.one_past_last) :
    ∃ h1, Vec.erase_loop fuel v i h = some (v.one_past_last - 1, h1) ∧
      ∀ a, h1.mem a =
        if i ≤ a ∧ a < i + fuel then ⟨false, (h.mem a).val⟩
        else if a = v.one_past_last ∧ 0 < fuel then ⟨true, (h.mem (v.one_past_last - 1)).val⟩
        else h.mem a := by
  induction fuel generalizing i h with
  | zero =>
    refine ⟨h, ?_, fun a => ?_⟩
    · have : i = v.one_past_last - 1 := by omega
      simp only [Vec.erase_loop, this, ne_eq, not_true_eq_false, if_false]
    · rw [if_neg (by omega), if_neg (by omega)]
  | succ n ih =>
    have hne : i ≠ v.one_past_last - 1 := by omega
    obtain ⟨h1, e1, m1⟩ := ih (i + 1)
      ((h.destroy_at i).construct v.one_past_last ((h.destroy_at i).read (i + 1))) (by omega)
    refine ⟨h1, by simp only [Vec.erase_loop, hne, ne_eq, not_false_eq_true, if_true, e1],
      fun a => ?_⟩
    rw [m1 a]
    simp only [construct_mem, destroy_at_mem, Heap.read]
    have hs : i + n + 1 + 1 = v.one_past_last := by omega
    split_ifs <;>
      first
      | rfl
      | (exfalso; omega)
      | (subst_vars; rfl)
      | (have e : i + 1 = v.one_past_last - 1 := by omega
         rw [e])

/-- The cells after `erase(pos)`: every cell from `pos` to the old last element is destroyed
in place and keeps its value, the cell at the old `one_past_last` holds a live copy of the
old last element unless `pos` was the last element, and no other cell changes. -/
theorem erase_cells (v : Vec) (pos : Nat) (h : Heap T) (hp : pos < v.one_past_last) :
    ∃ h1, v.erase pos h = .ok (pos, ⟨v.cap, v.len - 1, v.one_past_last - 1, v.data⟩, h1) ∧
      ∀ a, h1.mem a =
        if pos ≤ a ∧ a < v.one_past_last then ⟨false, (h.mem a).val⟩
        else if a = v.one_past_last ∧ pos + 1 < v.one_past_last then
          ⟨true, (h.mem (v.one_past_last - 1)).val⟩
        else h.mem a := by
  obtain ⟨h1, e1, m1⟩ := erase_loop_cells (v.one_past_last - 1 - pos) v pos h (by omega)
  refine ⟨h1.destroy_at (v.one_past_last - 1), by simp only [Vec.erase, e1], fun a => ?_⟩
  simp only [destroy_at_mem, m1]
  split_ifs <;>
    first
    | rfl
    | (exfalso; omega)
    | (subst_vars; rfl)

theorem Reachable.exec {w : World T} (hr : Reachable w) (op : Op T) : Reachable (w.exec op) := by
  unfold World.exec
  cases e : w.step op with
  | none => exact hr
  | some w1 => exact Reachable.step op hr e

theorem Reachable.start (oom : Nat → Nat → Bool) : Reachable (World.start oom : World T) :=
  Reachable.init oom

/-- On an object that satisfies the invariant, `push_back` returns normally whenever it needs
no growth, or the capacity is below the bound and the allocator serves the request. -/
theorem push_back_returns (v : Vec) (x : Ref T) (h : Heap T) (hi : Inv v h)
    (hs : v.len + 1 ≤ v.cap ∨ (v.cap < (SIZE_MAX - 1) / 2 ∧
      h.oom h.nallocs (max (2 * v.cap + 1) (max (v.len + 1) 8)) = false)) :
    ∃ v1 h1, v.push_back x h = .ok (v1, h1) := by
  have hl : v.len < SIZE_MAX := by
    obtain ⟨_, i2, _, i4⟩ := hi
    rcases hs with hs | hs
    · omega
    · have := hs.1
      simp only [SIZE_MAX] at this ⊢
      omega
  have hm : (v.len + 1) % (SIZE_MAX + 1) = v.len + 1 := Nat.mod_eq_of_lt (by omega)
  by_cases hg : v.len + 1 > v.cap
  · have hs2 := hs.resolve_left (by omega)
    obtain ⟨h1, g1, _⟩ := _grow_spec v (v.len + 1) h hi hs2.1 hs2.2
    refine ⟨⟨max (2 * v.cap + 1) (max (v.len + 1) 8), v.len + 1, h.next + (v.len + 1), h.next⟩,
      h1.construct (h.next + (v.len + 1) - 1) (h1.deref x), ?_⟩
    unfold Vec.push_back
    simp only [hm, hg, if_true, g1]
  · refine ⟨⟨v.cap, v.len + 1, v.data + (v.len + 1), v.data⟩,
      h.construct (v.data + (v.len + 1) - 1) (h.deref x), ?_⟩
    unfold Vec.push_back
    simp only [hm, hg, if_false]

/-- An element assignment keeps the list of objects and every cell outside the elements of
the object it is made through. -/
theorem exec_store_frame (w : World T) (j k : Nat) (x : T) (v : Vec) (hj : w.objs[j]? = some v) :
    (w.exec (.store j k x)).objs = w.objs ∧
    ∀ a, ¬ (v.data ≤ a ∧ a < v.data + v.len) →
      (w.exec (.store j k x)).heap.mem a = w.heap.mem a := by
  by_cases hk : k < v.len
  · have e : w.exec (.store j k x) = { w with heap := w.heap.assign (v.data + k) x } := by
      simp [World.exec, World.step, hj, Vec.size, hk]
    rw [e]
    exact ⟨rfl, fun a ha => by simp only [assign_mem]; exact if_neg (by omega)⟩
  · have e : w.exec (.store j k x) = w := by
      simp [World.exec, World.step, hj, Vec.size, hk]
    rw [e]
    exact ⟨rfl, fun _ _ => rfl⟩

/-- A sequence of element assignments through one object keeps the list of objects and every
cell outside the elements of that object. -/
theorem run_store_frame (ks : List (Nat × T)) (w : World T) (j : Nat) (v : Vec)
    (hj : w.objs[j]? = some v) :
    (w.run (ks.map fun p => Op.store j p.1 p.2)).objs = w.objs ∧
    ∀ a, ¬ (v.data ≤ a ∧ a < v.data + v.len) →
      (w.run (ks.map fun p => Op.store j p.1 p.2)).heap.mem a = w.heap.mem a := by
  induction ks generalizing w with
  | nil => exact ⟨rfl, fun _ _ => rfl⟩
  | cons p ks ih =>
    obtain ⟨a1, a2⟩ := exec_store_frame w j p.1 p.2 v hj
    obtain ⟨b1, b2⟩ := ih (w.exec (.store j p.1 p.2)) (by rw [a1]; exact hj)
    simp only [World.run, List.map_cons, List.foldl_cons] at b1 b2 ⊢
    exact ⟨by rw [b1, a1], fun a ha => by rw [b2 a ha, a2 a ha]⟩

/-- The cells of an object read the same in two heaps that agree on its elements. -/
theorem contents_congr (v : Vec) (h h1 : Heap T)
    (hm : ∀ a, v.data ≤ a ∧ a < v.data + v.len → h1.mem a = h.mem a) :
    v.contents h1 = v.contents h := by
  unfold Vec.contents
  apply List.map_congr_left
  intro i hi
  rw [List.mem_range] at hi
  simp only [Vec.size] at hi
  exact hm _ ⟨by omega, by omega⟩

/-- A stop of `_destroy` is the never ending loop. -/
theorem _destroy_error {v : Vec} {h : Heap T} {e : Stop × Vec × Heap T}
    (he : v._destroy h = .error e) : e.1 = Stop.undefined := by
  unfold Vec._destroy at he
  split at he
  · split at he
    · cases he
      rfl
    · cases he
  · cases he

/-- The iteration loop started `fuel` cells below `last` meets it and visits the cells in
between in order. -/
theorem iterate_loop_spec (fuel it : Nat) (h : Heap T) :
    iterate_loop fuel (it + fuel) it h = some ((List.range fuel).map fun k => h.mem (it + k)) := by
  induction fuel generalizing it with
  | zero => simp [iterate_loop]
  | succ n ih =>
    have hne : it ≠ it + (n + 1) := by omega
    have e : it + (n + 1) = it + 1 + n := by omega
    simp only [iterate_loop, hne, ne_eq, not_false_eq_true, if_true]
    rw [e, ih (it + 1), List.range_succ_eq_map]
    simp only [Option.map_some', List.map_cons, List.map_map, Nat.add_zero, Option.some.injEq,
      List.cons.injEq, true_and]
    apply List.map_congr_left
    intro k _
    simp only [Function.comp_apply]
    congr 1
    omega

/-- The growth step of `push_back` copies at most `one_past_last - data` elements, and none
when no growth is needed. -/
theorem push_back_copies_le (v : Vec) (h : Heap T) :
    v.push_back_copies h ≤ v.one_past_last - v.data ∧
    (¬ (v.len + 1) % (SIZE_MAX + 1) > v.cap → v.push_back_copies h = 0) := by
  unfold Vec.push_back_copies Vec._grow_copies
  refine ⟨?_, fun hg => by simp only [hg, if_false]⟩
  simp only
  split_ifs
  · split <;> simp
  all_goals simp

/-- The amortised bound with a potential: when the copies made so far are at most the
capacity and at most twice the length, the same holds after any run of `push_back` calls. -/
theorem push_back_all_copies_le (vals : List (Ref T)) (v : Vec) (h : Heap T) (c : Nat)
    (h1 : v.one_past_last = v.data + v.len) (h2 : v.len ≤ v.cap) (h3 : v.cap < SIZE_MAX)
    (h4 : c ≤ v.cap) (h5 : c ≤ 2 * v.len) :
    c + push_back_all_copies vals v h ≤ 2 * (v.len + vals.length) := by
  induction vals generalizing v h c with
  | nil => simp only [push_back_all_copies, List.length_nil]; omega
  | cons x xs ih =>
    have hl : v.len < SIZE_MAX := by omega
    have hm : (v.len + 1) % (SIZE_MAX + 1) = v.len + 1 := Nat.mod_eq_of_lt (by omega)
    obtain ⟨k1, k2⟩ := push_back_copies_le v h
    rw [hm] at k2
    simp only [push_back_all_copies, List.length_cons]
    cases e : v.push_back x h with
    | error err =>
      simp only
      by_cases hg : v.len + 1 > v.cap
      · omega
      · rw [k2 hg]
        omega
    | ok r =>
      obtain ⟨v1, hp⟩ := r
      simp only
      obtain ⟨_, g | g⟩ := push_back_ok hl e
      · obtain ⟨g1, g2, rfl, _⟩ := g
        have hb : 2 * v.cap + 1 ≤ max (2 * v.cap + 1) (max (v.len + 1) 8) := le_max_left _ _
        have hc : max (2 * v.cap + 1) (max (v.len + 1) 8) < SIZE_MAX := by
          apply max_lt
          · simp only [SIZE_MAX] at g2 ⊢
            omega
          · apply max_lt
            · omega
            · simp [SIZE_MAX]
        have := ih ⟨max (2 * v.cap + 1) (max (v.len + 1) 8), v.len + 1, h.next + (v.len + 1),
          h.next⟩ hp (c + v.push_back_copies h) rfl
          (le_max_of_le_right (le_max_left _ _)) hc (by simp only; omega) (by simp only; omega)
        simp only at this
        omega
      · obtain ⟨g1, rfl, _⟩ := g
        have := ih ⟨v.cap, v.len + 1, v.data + (v.len + 1), v.data⟩ hp
          (c + v.push_back_copies h) rfl g1 h3 (by rw [k2 (by omega)]; exact h4)
          (by rw [k2 (by omega)]; simp only; omega)
        simp only at this
        omega

/-- Twenty calls of `push_back` on an empty object copy 25 elements in growth steps (8 at
the ninth call, 17 at the eighteenth): more than one copy per call. -/
theorem push_back_all_copies_twenty :
    push_back_all_copies ((List.range 20).map Ref.obj) (Vec.ctor ⟨0, 0, 0, 0⟩)
      (Heap.init never_fails : Heap Nat) = 25 := by
  decide

/-- With the exchange that the specification describes for `swap`, move assignment hands
each object the members of the other. -/
theorem move_assign_exchange (a b : Vec) : Vec.move_assign a b = (b, a) := rfl

end Specs

/-! ## Ownership of storage in reachable states -/

section Ownership

variable {T : Type}

theorem Sep.symm {u v : Vec} (hs : Sep u v) : Sep v u := by
  unfold Sep at hs ⊢
  omega

/-- An object without capacity shares storage with no object. -/
theorem Sep.of_cap_zero {u v : Vec} (hz : u.cap = 0) : Sep u v := Or.inl hz

/-- An object whose storage was just allocated shares storage with no older object. -/
theorem Sep.of_fresh {u v : Vec} {h : Heap T} (hv : Inv v h) (hu : u.data = h.next) :
    Sep u v := by
  obtain ⟨_, _, c, _⟩ := hv
  unfold Sep
  omega

/-- Separation only depends on the storage pointer and the capacity. -/
theorem Sep.of_same {u u1 v : Vec} (hs : Sep u v) (hd : u1.data = u.data)
    (hc : u1.cap = u.cap) : Sep u1 v := by
  unfold Sep at hs ⊢
  omega

/-- Replacing object `i` by one that is separated from all the others keeps ownership. -/
theorem owns_set {w : World T} (ho : w.Owns) (i : Nat) (v1 : Vec) (h1 : Heap T)
    (hn : v1.data = NULL → v1.cap = 0)
    (hs : ∀ (k : Nat) (u : Vec), k ≠ i → w.objs[k]? = some u → Sep v1 u) :
    World.Owns { objs := w.objs.set i v1, heap := h1 } := by
  refine ⟨fun u hu => ?_, fun p q a b hpq ha hb => ?_⟩
  · rcases List.mem_or_eq_of_mem_set hu with hu | rfl
    · exact ho.1 u hu
    · exact hn
  · simp only [List.getElem?_set] at ha hb
    by_cases hp : i = p
    · by_cases hq : i = q
      · omega
      · rw [if_pos hp] at ha
        rw [if_neg hq] at hb
        split at ha
        · cases ha
          exact hs q b (fun e => hq e.symm) hb
        · cases ha
    · rw [if_neg hp] at ha
      by_cases hq : i = q
      · rw [if_pos hq] at hb
        split at hb
        · cases hb
          exact (hs p a (fun e => hp e.symm) ha).symm
        · cases hb
      · rw [if_neg hq] at hb
        exact ho.2 p q a b hpq ha hb

/-- Adding an object that is separated from all the others keeps ownership. -/
theorem owns_append {w : World T} (ho : w.Owns) (v1 : Vec) (h1 : Heap T)
    (hn : v1.data = NULL → v1.cap = 0) (hs : ∀ (k : Nat) (u : Vec), w.objs[k]? = some u → Sep v1 u) :
    World.Owns { objs := w.objs ++ [v1], heap := h1 } := by
  have key : ∀ (p : Nat) (a : Vec), (w.objs ++ [v1])[p]? = some a →
      (w.objs[p]? = some a) ∨ (p = w.objs.length ∧ a = v1) := by
    intro p a ha
    rw [List.getElem?_append] at ha
    split at ha
    · exact Or.inl ha
    · rename_i hlt
      rcases Nat.lt_or_ge 0 (p - w.objs.length) with hpos | hz
      · rw [List.getElem?_eq_none (by simp only [List.length_singleton]; omega)] at ha
        cases ha
      · have hz2 : p - w.objs.length = 0 := by omega
        rw [hz2] at ha
        simp only [List.getElem?_cons_zero, Option.some.injEq] at ha
        exact Or.inr ⟨by omega, ha.symm⟩
  refine ⟨fun u hu => ?_, fun p q a b hpq ha hb => ?_⟩
  · rcases List.mem_append.mp hu with hu | hu
    · exact ho.1 u hu
    · rw [List.mem_singleton] at hu
      subst hu
      exact hn
  · rcases key p a ha with ha1 | ⟨hp, ea⟩
    · rcases key q b hb with hb1 | ⟨hq, eb⟩
      · exact ho.2 p q a b hpq ha1 hb1
      · rw [eb]
        exact (hs p a ha1).symm
    · rcases key q b hb with hb1 | ⟨hq, eb⟩
      · rw [ea]
        exact hs q b hb1
      · omega

theorem World.put_some {w w1 : World T} {i : Nat} {r : Result T (Vec × Heap T)}
    (e : w.put i r = some w1) :
    ∃ v1 h1, r = .ok (v1, h1) ∧ w1 = { objs := w.objs.set i v1, heap := h1 } := by
  unfold World.put at e
  split at e
  · rename_i v1 h1
    cases e
    exact ⟨v1, h1, rfl, rfl⟩
  · cases e

theorem World.add_some {w w1 : World T} {r : Result T (Vec × Heap T)}
    (e : w.add r = some w1) :
    ∃ v1 h1, r = .ok (v1, h1) ∧ w1 = { objs := w.objs ++ [v1], heap := h1 } := by
  unfold World.add at e
  split at e
  · rename_i v1 h1
    cases e
    exact ⟨v1, h1, rfl, rfl⟩
  · cases e

/-- After `push_back` the storage is either freshly allocated or the old one. -/
theorem push_back_storage {v v1 : Vec} {x : Ref T} {h h1 : Heap T} (hi : Inv v h)
    (e : v.push_back x h = .ok (v1, h1)) :
    v1.data = h.next ∨ (v1.data = v.data ∧ v1.cap = v.cap) := by
  by_cases hl : v.len < SIZE_MAX
  · obtain ⟨_, g | g⟩ := push_back_ok hl e
    · obtain ⟨_, _, rfl, _⟩ := g
      exact Or.inl rfl
    · obtain ⟨_, rfl, _⟩ := g
      exact Or.inr ⟨rfl, rfl⟩
  · have hl2 : v.len = SIZE_MAX := by
      obtain ⟨_, b, _, d⟩ := hi
      omega
    have hm : (v.len + 1) % (SIZE_MAX + 1) = 0 := by rw [hl2]; exact Nat.mod_self _
    unfold Vec.push_back at e
    simp only [hm, gt_iff_lt, Nat.not_lt_zero, if_false] at e
    simp only [Except.ok.injEq, Prod.mk.injEq] at e
    obtain ⟨rfl, rfl⟩ := e
    exact Or.inr ⟨rfl, rfl⟩

/-- Replacing object `i` by one with freshly allocated storage keeps ownership. -/
theorem owns_set_fresh {w : World T} (hw : w.Inv) (ho : w.Owns) (i : Nat) (v1 : Vec)
    (h1 : Heap T) (hf : v1.data = w.heap.next) :
    World.Owns { objs := w.objs.set i v1, heap := h1 } :=
  owns_set ho i v1 h1 (fun e => by have := hw.1; simp only [NULL] at e; omega)
    (fun _ u _ hu => Sep.of_fresh (hw.2 u (List.getElem?_mem hu)) hf)

/-- Replacing object `i` by one with the same storage and capacity keeps ownership. -/
theorem owns_set_same {w : World T} (ho : w.Owns) (i : Nat) (v v1 : Vec) (h1 : Heap T)
    (ev : w.objs[i]? = some v) (hd : v1.data = v.data) (hc : v1.cap = v.cap) :
    World.Owns { objs := w.objs.set i v1, heap := h1 } :=
  owns_set ho i v1 h1 (fun e => by rw [hc]; exact ho.1 v (List.getElem?_mem ev) (by rw [← hd]; exact e))
    (fun k u hk hu => (ho.2 i k v u (Ne.symm hk) ev hu).of_same hd hc)

/-- Adding an object with freshly allocated storage keeps ownership. -/
theorem owns_append_fresh {w : World T} (hw : w.Inv) (ho : w.Owns) (v1 : Vec) (h1 : Heap T)
    (hf : v1.data = w.heap.next) :
    World.Owns { objs := w.objs ++ [v1], heap := h1 } :=
  owns_append ho v1 h1 (fun e => by have := hw.1; simp only [NULL] at e; omega)
    (fun _ u hu => Sep.of_fresh (hw.2 u (List.getElem?_mem hu)) hf)

/-- Exchanging the objects `i` and `j` keeps ownership. -/
theorem owns_swap {w : World T} (ho : w.Owns) (i j : Nat) (vi vj : Vec)
    (ei : w.objs[i]? = some vi) (ej : w.objs[j]? = some vj) (h1 : Heap T) :
    World.Owns { objs := (w.objs.set j vi).set i vj, heap := h1 } := by
  have key : ∀ (p : Nat) (a : Vec), ((w.objs.set j vi).set i vj)[p]? = some a →
      w.objs[if p = i then j else if p = j then i else p]? = some a := by
    intro p a ha
    simp only [List.getElem?_set, List.length_set] at ha
    by_cases hp : i = p
    · rw [if_pos hp] at ha
      rw [if_pos hp.symm]
      split at ha
      · cases ha
        exact ej
      · cases ha
    · rw [if_neg hp] at ha
      rw [if_neg (fun e => hp e.symm)]
      by_cases hq : j = p
      · rw [if_pos hq] at ha
        rw [if_pos hq.symm]
        split at ha
        · cases ha
          exact ei
        · cases ha
      · rw [if_neg hq] at ha
        rw [if_neg (fun e => hq e.symm)]
        exact ha
  refine ⟨fun u hu => ?_, fun p q a b hpq ha hb => ?_⟩
  · rcases List.mem_or_eq_of_mem_set hu with hu | rfl
    · rcases List.mem_or_eq_of_mem_set hu with hu | rfl
      · exact ho.1 u hu
      · exact ho.1 _ (List.getElem?_mem ei)
    · exact ho.1 _ (List.getElem?_mem ej)
  · refine ho.2 _ _ a b ?_ (key p a ha) (key q b hb)
    split_ifs <;> omega

/-- Every public operation keeps the ownership invariant. -/
theorem World.step_owns {w w1 : World T} (op : Op T) (hw : w.Inv) (ho : w.Owns)
    (e : w.step op = some w1) : w1.Owns := by
  cases op with
  | ctor raw =>
    simp only [World.step, Option.some.injEq] at e
    subst e
    exact owns_append ho _ _ (fun _ => rfl) (fun _ _ _ => Sep.of_cap_zero rfl)
  | ctor_fill raw n x =>
    simp only [World.step] at e
    split at e
    · obtain ⟨v1, h1, e1, rfl⟩ := World.add_some e
      obtain ⟨rfl, _, _⟩ := _construct_fill_ok e1
      exact owns_append_fresh hw ho _ _ rfl
    · cases e
  | ctor_copy raw j =>
    simp only [World.step] at e
    split at e
    · cases e
    · obtain ⟨v1, h1, e1, rfl⟩ := World.add_some e
      obtain ⟨_, rfl, _, _⟩ := _construct_range_ok e1
      exact owns_append_fresh hw ho _ _ rfl
  | ctor_move raw j =>
    simp only [World.step] at e
    split at e
    · cases e
    · rename_i vj ej
      simp only [Option.some.injEq] at e
      subst e
      refine owns_append
        (owns_set ho j (Vec.ctor_move raw vj).2 w.heap (fun _ => rfl)
          (fun _ _ _ _ => Sep.of_cap_zero rfl))
        _ _ (ho.1 vj (List.getElem?_mem ej)) (fun k u hu => ?_)
      simp only [List.getElem?_set] at hu
      by_cases hk : j = k
      · rw [if_pos hk] at hu
        split at hu
        · cases hu
          exact (Sep.of_cap_zero rfl).symm
        · cases hu
      · rw [if_neg hk] at hu
        exact ho.2 j k vj u hk ej hu
  | push_back i x =>
    simp only [World.step] at e
    split at e
    · cases e
    · rename_i v ev
      obtain ⟨v1, h1, e1, rfl⟩ := World.put_some e
      rcases push_back_storage (hw.2 v (List.getElem?_mem ev)) e1 with hf | ⟨hd, hc⟩
      · exact owns_set_fresh hw ho i v1 h1 hf
      · exact owns_set_same ho i v v1 h1 ev hd hc
  | erase i k =>
    simp only [World.step] at e
    split at e
    · cases e
    · rename_i v ev
      split at e
      · split at e
        · rename_i r v1 h1 e1
          obtain ⟨_, rfl, _, _⟩ := erase_ok e1
          simp only [Option.some.injEq] at e
          subst e
          exact owns_set_same ho i v _ h1 ev rfl rfl
        · cases e
      · cases e
  | clear i =>
    simp only [World.step] at e
    split at e
    · cases e
    · obtain ⟨v1, h1, e1, rfl⟩ := World.put_some e
      obtain ⟨rfl, _⟩ := _destroy_ok e1
      exact owns_set ho i _ h1 (fun _ => rfl) (fun _ _ _ _ => Sep.of_cap_zero rfl)
  | store i k x =>
    simp only [World.step] at e
    split at e
    · cases e
    · split at e
      · simp only [Option.some.injEq] at e
        subst e
        exact ⟨ho.1, ho.2⟩
      · cases e
  | copy_assign i j =>
    simp only [World.step] at e
    split at e
    · rename_i vi vj ei ej
      obtain ⟨v1, h1, e1, rfl⟩ := World.put_some e
      unfold Vec.copy_assign at e1
      split at e1
      · split at e1
        · cases e1
        · rename_i s1 h2 e2
          obtain ⟨_, g2, _⟩ := _destroy_ok e2
          obtain ⟨_, rfl, _, _⟩ := _construct_range_ok e1
          exact owns_set_fresh hw ho i _ h1 g2
      · simp only [Except.ok.injEq, Prod.mk.injEq] at e1
        obtain ⟨rfl, rfl⟩ := e1
        exact owns_set_same ho i _ _ _ ei rfl rfl
    · cases e
  | move_assign i j =>
    simp only [World.step] at e
    split at e
    · rename_i vi vj ei ej
      simp only [Option.some.injEq] at e
      subst e
      exact owns_swap ho i j vi vj ei ej w.heap
    · cases e

/-- Every reachable program state satisfies the ownership invariant. -/
theorem Reachable.owns {w : World T} (hr : Reachable w) : w.Owns := by
  induction hr with
  | init oom =>
    refine ⟨fun v hv => ?_, fun p q u v _ hu _ => ?_⟩
    · cases hv
    · simp at hu
  | step op hr1 e ih => exact World.step_owns op hr1.inv ih e

/-- Writing back the object that is already at position `i` changes nothing. -/
theorem set_same (l : List Vec) (i : Nat) (a : Vec) (hi : l[i]? = some a) : l.set i a = l := by
  apply List.ext_getElem?
  intro n
  rw [List.getElem?_set]
  by_cases hn : i = n
  · subst hn
    rw [if_pos rfl, hi]
    have hlt : i < l.length := by
      rcases Nat.lt_or_ge i l.length with h | h
      · exact h
      · rw [List.getElem?_eq_none h] at hi
        cases hi
    rw [if_pos hlt]
  · rw [if_neg hn]

/-- Round trip of `push_back` for arguments outside the free store: for every object of a
reachable program state whose cells below `size()` hold the live elements `xs`, and every
list of values `vals` with `|xs| + |vals| ≤ (SIZE_MAX - 1) / 2`, with an allocator that
serves every request, calling `push_back` on each value in order returns normally;
afterwards `size()` is `|xs| + |vals|`, `operator[](i)` is the live element `xs[i]` for
`i < |xs|`, and `operator[](|xs| + i)` is the live element `vals[i]` for `i < |vals|`. -/
theorem push_back_all_objs_round_trip (w : World T) (hr : Reachable w) (v : Vec)
    (hv : v ∈ w.objs) (xs : List T) (hx : Holds v w.heap xs) (vals : List T)
    (hb : xs.length + vals.length ≤ (SIZE_MAX - 1) / 2)
    (hoom : ∀ k n, w.heap.oom k n = false) :
    ∃ v1 h1, push_back_all (vals.map Ref.obj) v w.heap = .ok (v1, h1) ∧
      v1.size = xs.length + vals.length ∧
      (∀ i (hi : i < xs.length), v1.index h1 i = ⟨true, some xs[i]⟩) ∧
      (∀ i (hi : i < vals.length), v1.index h1 (xs.length + i) = ⟨true, some vals[i]⟩) := by
  obtain ⟨v1, h1, e1, _, x1, _⟩ :=
    push_back_all_bound vals v w.heap xs (hr.inv.2 v hv) hx hoom hb
  refine ⟨v1, h1, e1, by simpa using x1.1, fun i hi => ?_, fun i hi => ?_⟩
  · rw [x1.2 i (by simp only [List.length_append]; omega), List.getElem?_append_left hi,
      List.getElem?_eq_getElem hi]
  · rw [x1.2 (xs.length + i) (by simp only [List.length_append]; omega),
      List.getElem?_append_right (by omega)]
    simp only [Nat.add_sub_cancel_left, List.getElem?_eq_getElem hi]

end Ownership

/-! ## The claims -/

section Claims

variable {T : Type}

/-- C1 (code defect): evaluation of `Vec<int> a(8, 7); a.push_back(a[0]);` on the source.
The state after `Vec<int> a(8, 7);` is reachable; `a` holds eight live elements of value 7
and its capacity 8 is below `(SIZE_MAX - 1) / 2`. The argument of `push_back(const T& v)`
refers to the first element of `a`. The object is full, so `_grow` allocates new storage
(capacity 17, at address 10), copies the eight elements, and then `_destroy()` destroys the
old elements and deallocates the old block, the one `v` refers to; only then does
`new (one_past_last - 1) T(v)` read `v`. The call returns with `size() == 9` and `a[0..7]`
live with value 7, but `a[8]` is constructed from freed storage: its value is
indeterminate, not the pushed 7. With the same value held in a local variable
(`int x = a[0]; a.push_back(x);`) the same call leaves `a[8] == 7`. -/
theorem push_back_reads_freed_argument :
    Reachable alias_world ∧ alias_vec ∈ alias_world.objs ∧
    alias_vec.contents alias_world.heap = List.replicate 8 ⟨true, some 7⟩ ∧
    alias_vec.cap < (SIZE_MAX - 1) / 2 ∧
    (alias_world.heap.deref (alias_vec.ref 0) = some 7) ∧
    push_view alias_pushed =
      some (⟨17, 9, 19, 10⟩, List.replicate 8 ⟨true, some 7⟩ ++ [⟨true, none⟩], [(10, 17)]) ∧
    push_view local_pushed =
      some (⟨17, 9, 19, 10⟩, List.replicate 9 ⟨true, some 7⟩, [(10, 17)]) :=
  ⟨(Reachable.start never_fails).exec _, by decide, by decide,
    by norm_num [alias_vec, SIZE_MAX], by decide, by decide, by decide⟩

/-- C2 (code defect): evaluation of the scenario of the specification. After pushing
`0, ..., 9` onto an empty object (capacity 17, storage at address 10), `erase(begin() + 3)`
returns `begin() + 3` and leaves `size() == 9`, but the cells below `size()` are not the
compacted sequence `0, 1, 2, 4, 5, 6, 7, 8, 9`: cells `0..2` are live, cells `3..8` were
destroyed in place and still store `3, ..., 8`, because every shifted element was constructed
at `one_past_last` (cell 10) instead of at the freed cell. -/
theorem erase_scenario_not_compacted :
    erase_view test1_erased = some (13, ⟨17, 9, 19, 10⟩,
      [⟨true, some 0⟩, ⟨true, some 1⟩, ⟨true, some 2⟩, ⟨false, some 3⟩, ⟨false, some 4⟩,
       ⟨false, some 5⟩, ⟨false, some 6⟩, ⟨false, some 7⟩, ⟨false, some 8⟩]) ∧
    removed_at (List.range 10) 3 = [0, 1, 2, 4, 5, 6, 7, 8, 9] := by
  decide

/-- C3: for every object `v` of a reachable program state, with an allocator that serves the
request for `v.size()` elements, copy construction from `v` returns normally; the new object
has length and capacity equal to `v`'s length, its cell `i` is a live element with the value
of `v[i]` for every `i < v.size()`, and the cells of `v` are unchanged. -/
theorem ctor_copy_spec (w : World T) (hr : Reachable w) (v : Vec) (hv : v ∈ w.objs) (raw : Vec)
    (ha : w.heap.oom w.heap.nallocs v.size = false) :
    ∃ v1 h1, Vec.ctor_copy raw v w.heap = .ok (v1, h1) ∧ v1.size = v.size ∧ v1.cap = v.size ∧
      (∀ i, i < v.size → v1.index h1 i = ⟨true, (v.index w.heap i).val⟩) ∧
      (∀ i, i < v.size → v.index h1 i = v.index w.heap i) := by
  obtain ⟨i1, i2, i3, _⟩ := hr.inv.2 v hv
  have hd : v.one_past_last - v.data = v.len := by omega
  simp only [Vec.size] at ha ⊢
  obtain ⟨h1, e1, _, _, m1⟩ := _construct_range_spec raw v.data v.one_past_last w.heap
    (by omega) (by omega) (by rw [hd]; exact ha)
  rw [hd] at e1 m1
  refine ⟨_, h1, e1, rfl, rfl, fun i hi => ?_, fun i hi => ?_⟩
  · simp only [Vec.index]
    rw [m1, if_pos (by omega), Nat.add_sub_cancel_left]
  · simp only [Vec.index]
    rw [m1, if_neg (by omega)]

/-- Witness for C3: copy construction from a fill-constructed object. -/
theorem ctor_copy_spec_witness :
    ∃ v1 h1, Vec.ctor_copy ⟨0, 0, 0, 0⟩ ⟨2, 2, 3, 1⟩
        ((World.start never_fails).exec (.ctor_fill ⟨0, 0, 0, 0⟩ 2 7) : World Nat).heap =
        .ok (v1, h1) ∧
      v1.size = (⟨2, 2, 3, 1⟩ : Vec).size ∧ v1.cap = (⟨2, 2, 3, 1⟩ : Vec).size ∧
      (∀ i, i < (⟨2, 2, 3, 1⟩ : Vec).size → v1.index h1 i =
        ⟨true, ((⟨2, 2, 3, 1⟩ : Vec).index
          ((World.start never_fails).exec (.ctor_fill ⟨0, 0, 0, 0⟩ 2 7) : World Nat).heap i).val⟩) ∧
      (∀ i, i < (⟨2, 2, 3, 1⟩ : Vec).size → (⟨2, 2, 3, 1⟩ : Vec).index h1 i =
        (⟨2, 2, 3, 1⟩ : Vec).index
          ((World.start never_fails).exec (.ctor_fill ⟨0, 0, 0, 0⟩ 2 7) : World Nat).heap i) :=
  ctor_copy_spec ((World.start never_fails).exec (.ctor_fill ⟨0, 0, 0, 0⟩ 2 7))
    ((Reachable.start never_fails).exec _) ⟨2, 2, 3, 1⟩ (by decide) ⟨0, 0, 0, 0⟩ rfl

/-- C4: let `a` be object number `i` of a reachable program state and let the copy
constructor make `b` from `a`. Then every sequence of element assignments `b[k] = x`
(`k < b.size()`) leaves the members of `a` (so its size) and every cell of `a` unchanged,
and every sequence of element assignments `a[k] = x` leaves the members and cells of `b`
unchanged. -/
theorem copy_independent (w : World T) (hr : Reachable w) (i : Nat) (a : Vec)
    (hi : w.objs[i]? = some a) (raw : Vec) (w1 : World T)
    (hc : w.step (.ctor_copy raw i) = some w1) (ks : List (Nat × T)) :
    ∃ b, w1.objs[w.objs.length]? = some b ∧ w1.objs[i]? = some a ∧
      ((w1.run (ks.map fun p => Op.store w.objs.length p.1 p.2)).objs[i]? = some a ∧
        a.contents (w1.run (ks.map fun p => Op.store w.objs.length p.1 p.2)).heap =
          a.contents w1.heap) ∧
      ((w1.run (ks.map fun p => Op.store i p.1 p.2)).objs[w.objs.length]? = some b ∧
        b.contents (w1.run (ks.map fun p => Op.store i p.1 p.2)).heap = b.contents w1.heap) := by
  obtain ⟨i1, i2, i3, _⟩ := hr.inv.2 a (List.getElem?_mem hi)
  simp only [World.step, hi, World.add] at hc
  split at hc
  · rename_i b h1 e1
    simp only [Option.some.injEq] at hc
    subst hc
    obtain ⟨_, hbeq, _, _⟩ := _construct_range_ok e1
    have hbd : b.data = w.heap.next := by rw [hbeq]
    have hbl : b.len = a.one_past_last - a.data := by rw [hbeq]; rfl
    have hlt : i < w.objs.length := by
      rcases Nat.lt_or_ge i w.objs.length with h | h
      · exact h
      · rw [List.getElem?_eq_none h] at hi
        cases hi
    have hb : (w.objs ++ [b])[w.objs.length]? = some b := by
      rw [List.getElem?_append_right (Nat.le_refl _)]
      simp
    have ha : (w.objs ++ [b])[i]? = some a := by
      rw [List.getElem?_append_left hlt]
      exact hi
    refine ⟨b, hb, ha, ?_, ?_⟩
    · obtain ⟨r1, r2⟩ := run_store_frame ks { objs := w.objs ++ [b], heap := h1 } _ b hb
      exact ⟨by rw [r1]; exact ha, contents_congr _ _ _ (fun c hc => r2 c (by omega))⟩
    · obtain ⟨r1, r2⟩ := run_store_frame ks { objs := w.objs ++ [b], heap := h1 } _ a ha
      exact ⟨by rw [r1]; exact hb, contents_congr _ _ _ (fun c hc => r2 c (by omega))⟩
  · cases hc

/-- Witness for C4: `Vec<int> a(2, 7); Vec<int> b(a);`, then two element assignments. -/
theorem copy_independent_witness :
    ∃ b, (demo_world.exec (.ctor_copy ⟨0, 0, 0, 0⟩ 0)).objs[demo_world.objs.length]? = some b ∧
      (demo_world.exec (.ctor_copy ⟨0, 0, 0, 0⟩ 0)).objs[0]? = some demo_vec ∧
      (((demo_world.exec (.ctor_copy ⟨0, 0, 0, 0⟩ 0)).run
          ([(0, 8), (1, 9)].map fun p => Op.store demo_world.objs.length p.1 p.2)).objs[0]? =
          some demo_vec ∧
        demo_vec.contents ((demo_world.exec (.ctor_copy ⟨0, 0, 0, 0⟩ 0)).run
          ([(0, 8), (1, 9)].map fun p => Op.store demo_world.objs.length p.1 p.2)).heap =
          demo_vec.contents (demo_world.exec (.ctor_copy ⟨0, 0, 0, 0⟩ 0)).heap) ∧
      (((demo_world.exec (.ctor_copy ⟨0, 0, 0, 0⟩ 0)).run
          ([(0, 8), (1, 9)].map fun p => Op.store 0 p.1 p.2)).objs[demo_world.objs.length]? =
          some b ∧
        b.contents ((demo_world.exec (.ctor_copy ⟨0, 0, 0, 0⟩ 0)).run
          ([(0, 8), (1, 9)].map fun p => Op.store 0 p.1 p.2)).heap =
          b.contents (demo_world.exec (.ctor_copy ⟨0, 0, 0, 0⟩ 0)).heap) :=
  copy_independent demo_world ((Reachable.start never_fails).exec _) 0 demo_vec rfl ⟨0, 0, 0, 0⟩
    (demo_world.exec (.ctor_copy ⟨0, 0, 0, 0⟩ 0)) rfl [(0, 8), (1, 9)]

/-- C5: move construction of `B` from `A` gives `B` the length, capacity, storage and cells
that `A` had, and leaves `A` in the empty state: length 0, capacity 0, `data` and
`one_past_last` null. No cell of the heap is touched. -/
theorem ctor_move_spec (raw A : Vec) :
    (Vec.ctor_move raw A).1.size = A.size ∧ (Vec.ctor_move raw A).1.cap = A.cap ∧
    (Vec.ctor_move raw A).1.begin = A.begin ∧ (Vec.ctor_move raw A).1.end_ = A.end_ ∧
    (∀ h : Heap T, (Vec.ctor_move raw A).1.contents h = A.contents h) ∧
    (Vec.ctor_move raw A).2.len = 0 ∧ (Vec.ctor_move raw A).2.cap = 0 ∧
    (Vec.ctor_move raw A).2.data = NULL ∧ (Vec.ctor_move raw A).2.one_past_last = NULL :=
  ⟨rfl, rfl, rfl, rfl, fun _ => rfl, rfl, rfl, rfl, rfl⟩

/-- C6: for every object of a reachable program state, `clear()` returns normally and leaves
exactly the object that the empty constructor makes: length 0, capacity 0, `data` and
`one_past_last` null; a second `clear()` changes neither the object nor the heap. -/
theorem clear_spec (w : World T) (hr : Reachable w) (v : Vec) (hv : v ∈ w.objs) (raw : Vec) :
    ∃ h1, v.clear w.heap = .ok (Vec.ctor raw, h1) ∧
      (Vec.ctor raw).len = 0 ∧ (Vec.ctor raw).cap = 0 ∧ (Vec.ctor raw).data = NULL ∧
      (Vec.ctor raw).one_past_last = NULL ∧
      (Vec.ctor raw).clear h1 = .ok (Vec.ctor raw, h1) := by
  obtain ⟨i1, _, _, _⟩ := hr.inv.2 v hv
  obtain ⟨h1, e1, _⟩ := _destroy_spec v w.heap (by omega)
  exact ⟨h1, e1, rfl, rfl, rfl, rfl, rfl⟩

/-- Witness for C6: `clear()` on a fill-constructed object. -/
theorem clear_spec_witness :
    ∃ h1, demo_vec.clear demo_world.heap = .ok (Vec.ctor ⟨5, 5, 5, 5⟩, h1) ∧
      (Vec.ctor ⟨5, 5, 5, 5⟩).len = 0 ∧ (Vec.ctor ⟨5, 5, 5, 5⟩).cap = 0 ∧
      (Vec.ctor ⟨5, 5, 5, 5⟩).data = NULL ∧ (Vec.ctor ⟨5, 5, 5, 5⟩).one_past_last = NULL ∧
      (Vec.ctor ⟨5, 5, 5, 5⟩).clear h1 = .ok (Vec.ctor ⟨5, 5, 5, 5⟩, h1) :=
  clear_spec demo_world ((Reachable.start never_fails).exec _) demo_vec (by decide) ⟨5, 5, 5, 5⟩

/-- C7: in every program state reachable from the start by the constructors (empty, fill,
copy, move), `push_back`, `erase` at a valid position, `clear`, element assignment, copy
assignment and move assignment, every object has `len ≤ cap`. -/
theorem reachable_len_le_cap (w : World T) (hr : Reachable w) (v : Vec) (hv : v ∈ w.objs) :
    v.len ≤ v.cap :=
  (hr.inv.2 v hv).2.1

/-- Witness for C7: the object of `Vec<int> a(2, 7); a.push_back(9);`. -/
theorem reachable_len_le_cap_witness :
    (⟨8, 3, 7, 4⟩ : Vec).len ≤ (⟨8, 3, 7, 4⟩ : Vec).cap :=
  reachable_len_le_cap (demo_world.exec (.push_back 0 (.obj 9)))
    (((Reachable.start never_fails).exec _).exec _)
    ⟨8, 3, 7, 4⟩ (by decide)

/-- C8: for every object of a reachable program state with `len ≤ cap < (SIZE_MAX - 1) / 2`,
`push_back` of any argument (an object outside the free store or a cell of it) returns
normally (given that the allocator serves the request of a growth step);
if `len + 1 > cap`, the new capacity is `max(2 * cap + 1, max(len + 1, 8))` of the old values,
which is at least 8, greater than the old capacity and at least the new length; if
`len + 1 ≤ cap`, the capacity is unchanged. -/
theorem push_back_capacity (w : World T) (hr : Reachable w) (v : Vec) (hv : v ∈ w.objs)
    (x : Ref T)
    (hlc : v.len ≤ v.cap) (hc : v.cap < (SIZE_MAX - 1) / 2)
    (ha : v.len + 1 > v.cap →
      w.heap.oom w.heap.nallocs (max (2 * v.cap + 1) (max (v.len + 1) 8)) = false) :
    ∃ v1 h1, v.push_back x w.heap = .ok (v1, h1) ∧
      (v.len + 1 > v.cap →
        v1.cap = max (2 * v.cap + 1) (max (v.len + 1) 8) ∧ 8 ≤ v1.cap ∧ v.cap < v1.cap ∧
          v1.len ≤ v1.cap) ∧
      (v.len + 1 ≤ v.cap → v1.cap = v.cap) := by
  have hi := hr.inv.2 v hv
  have hl : v.len < SIZE_MAX := by
    simp only [SIZE_MAX] at hc ⊢
    omega
  obtain ⟨v1, h1, e1⟩ := push_back_returns v x w.heap hi (by
    by_cases hg : v.len + 1 ≤ v.cap
    · exact Or.inl hg
    · exact Or.inr ⟨hc, ha (by omega)⟩)
  refine ⟨v1, h1, e1, fun hg => ?_, fun hg => ?_⟩
  · obtain ⟨_, h2 | h2⟩ := push_back_ok hl e1
    · obtain ⟨_, _, rfl, _⟩ := h2
      refine ⟨rfl, ?_, ?_, ?_⟩
      · exact le_max_of_le_right (le_max_right _ _)
      · exact Nat.lt_of_lt_of_le (by omega) (le_max_left _ _)
      · exact le_max_of_le_right (le_max_left _ _)
    · omega
  · obtain ⟨_, h2 | h2⟩ := push_back_ok hl e1
    · omega
    · obtain ⟨_, rfl, _⟩ := h2
      rfl

/-- Witness for C8: `push_back` on a full object of two elements. -/
theorem push_back_capacity_witness :
    ∃ v1 h1, demo_vec.push_back (.obj 9) demo_world.heap = .ok (v1, h1) ∧
      (demo_vec.len + 1 > demo_vec.cap →
        v1.cap = max (2 * demo_vec.cap + 1) (max (demo_vec.len + 1) 8) ∧ 8 ≤ v1.cap ∧
          demo_vec.cap < v1.cap ∧ v1.len ≤ v1.cap) ∧
      (demo_vec.len + 1 ≤ demo_vec.cap → v1.cap = demo_vec.cap) :=
  push_back_capacity demo_world ((Reachable.start never_fails).exec _) demo_vec (by decide)
    (.obj 9) (by decide) (by decide) (fun _ => rfl)

/-- C9: for every object of length at least one and every position `pos` in
`[begin(), end())`, `erase(pos)` returns normally and returns `pos`; the length is one less,
`end()` is one cell lower, the capacity and the storage pointer are unchanged, and `pos` lies
in the new `[begin(), end()]`. -/
theorem erase_frame (v : Vec) (h : Heap T) (pos : Nat) (hn : 1 ≤ v.size)
    (hp1 : v.begin ≤ pos) (hp2 : pos < v.end_) :
    ∃ v1 h1, v.erase pos h = .ok (pos, v1, h1) ∧ v1.size + 1 = v.size ∧
      v1.end_ + 1 = v.end_ ∧ v1.cap = v.cap ∧ v1.begin = v.begin ∧
      v1.begin ≤ pos ∧ pos ≤ v1.end_ := by
  simp only [Vec.size, Vec.begin, Vec.end_] at hn hp1 hp2 ⊢
  obtain ⟨h1, e1⟩ := erase_spec v pos h hp2
  exact ⟨_, h1, e1, by simp only; omega, by simp only; omega, rfl, rfl, hp1,
    by simp only; omega⟩

/-- Witness for C9: `erase(begin())` on a fill-constructed object of two elements. -/
theorem erase_frame_witness :
    ∃ v1 h1, demo_vec.erase 1 demo_world.heap = .ok (1, v1, h1) ∧ v1.size + 1 = demo_vec.size ∧
      v1.end_ + 1 = demo_vec.end_ ∧ v1.cap = demo_vec.cap ∧ v1.begin = demo_vec.begin ∧
      v1.begin ≤ 1 ∧ 1 ≤ v1.end_ :=
  erase_frame demo_vec demo_world.heap 1 (by decide) (by decide) (by decide)

/-- C10: for every count `n` and value `x`, with an allocator that serves the request, the
fill constructor returns normally with length and capacity `n`, and `operator[](i)` is a live
element with value `x` for every `i < n`. -/
theorem ctor_fill_spec (raw : Vec) (n : Nat) (x : T) (h : Heap T)
    (ha : h.oom h.nallocs n = false) :
    ∃ v1 h1, Vec.ctor_fill raw n x h = .ok (v1, h1) ∧ v1.size = n ∧ v1.cap = n ∧
      ∀ i, i < n → v1.index h1 i = ⟨true, some x⟩ := by
  obtain ⟨h1, e1, _, _, m1⟩ := _construct_fill_spec raw n x h ha
  refine ⟨_, h1, e1, rfl, rfl, fun i hi => ?_⟩
  simp only [Vec.index]
  rw [m1, if_pos (by omega)]

/-- Witness for C10: `Vec<int> a(3, 4);` on the untouched heap. -/
theorem ctor_fill_spec_witness :
    ∃ v1 h1, Vec.ctor_fill ⟨0, 0, 0, 0⟩ 3 4 (Heap.init never_fails) = .ok (v1, h1) ∧
      v1.size = 3 ∧ v1.cap = 3 ∧ ∀ i, i < 3 → v1.index h1 i = ⟨true, some 4⟩ :=
  ctor_fill_spec ⟨0, 0, 0, 0⟩ 3 4 (Heap.init never_fails) rfl

/-- C13: when `push_back` (of any argument) has to grow (`len + 1 > cap`), the capacity is
below the bound of the first assertion, and the allocation of the new block fails, the call
stops in the
`fatal` call of `_grow` with the object and the heap exactly as they were before the call:
no member has been assigned and no element has been destroyed, so every original element
is still live at its index and `len`, `cap` and `data` are unchanged. -/
theorem push_back_alloc_failure (v : Vec) (x : Ref T) (h : Heap T)
    (hg : (v.len + 1) % (SIZE_MAX + 1) > v.cap) (hc : v.cap < (SIZE_MAX - 1) / 2)
    (hf : h.oom h.nallocs
      (max (2 * v.cap + 1) (max ((v.len + 1) % (SIZE_MAX + 1)) 8)) = true) :
    v.push_back x h = .error (Stop.fatal_grow, v, h) := by
  have hm : (2 * v.cap + 1) % (SIZE_MAX + 1) = 2 * v.cap + 1 := by
    apply Nat.mod_eq_of_lt
    simp only [SIZE_MAX] at hc ⊢
    omega
  have hgt : max (2 * v.cap + 1) (max ((v.len + 1) % (SIZE_MAX + 1)) 8) > v.cap :=
    Nat.lt_of_lt_of_le (by omega) (le_max_left _ _)
  have ha : h.allocate (max (2 * v.cap + 1) (max ((v.len + 1) % (SIZE_MAX + 1)) 8)) = none := by
    unfold Heap.allocate
    rw [if_pos hf]
  unfold Vec.push_back
  simp only [hg, if_true]
  unfold Vec._grow
  simp only [hc, not_true_eq_false, if_false, hm, hgt, ha]

/-- Witness for C13: the first `push_back` on an empty object when every allocation fails. -/
theorem push_back_alloc_failure_witness :
    (⟨0, 0, 0, 0⟩ : Vec).push_back (.obj 3) starved_heap =
      .error (Stop.fatal_grow, ⟨0, 0, 0, 0⟩, starved_heap) :=
  push_back_alloc_failure ⟨0, 0, 0, 0⟩ (.obj 3) starved_heap (by decide) (by decide) rfl

/-- C16 (code defect): evaluation of `Vec<int> a(4, 7); a.erase(a.begin() + 1);`. The object
has `len == cap == 4` in the block `(1, 4)`; `erase` returns with `len == 3` after running
a constructor twice at address 5, that is at index `4 == cap`, outside the block. -/
theorem erase_writes_past_capacity :
    faults_view fill_erased = some (⟨4, 3, 4, 1⟩, [(1, 4)], [5, 5]) := by
  decide

/-- C17 (code defect): evaluation of the scenario of the specification. After pushing
`0, ..., 9` and `erase(begin() + 3)` the object has `size() == 9` and capacity 17; the cells
at the indices `3, ..., 8` below `size()` hold no constructed element, and the cell at
index 10, in `[size(), capacity)`, holds one. -/
theorem erase_breaks_lifetimes :
    live_view test1_erased = some (9, 17,
      [true, true, true, false, false, false, false, false, false, false, true, false, false,
       false, false, false, false]) := by
  decide

/-- C18: in `_grow`, when the first assertion `cap < (SIZE_MAX - 1) / 2` holds, `2 * cap + 1`
does not wrap around in `size_t` arithmetic, `new_cap > cap` holds for every `new_len`, and
the call never stops at the second assertion. -/
theorem grow_second_assertion (v : Vec) (n : Nat) (h : Heap T)
    (hc : v.cap < (SIZE_MAX - 1) / 2) :
    (2 * v.cap + 1) % (SIZE_MAX + 1) = 2 * v.cap + 1 ∧
    max ((2 * v.cap + 1) % (SIZE_MAX + 1)) (max n 8) > v.cap ∧
    ∀ e, v._grow n h ≠ .error (Stop.assert_new_cap, e) := by
  have hm : (2 * v.cap + 1) % (SIZE_MAX + 1) = 2 * v.cap + 1 := by
    apply Nat.mod_eq_of_lt
    simp only [SIZE_MAX] at hc ⊢
    omega
  have hgt : max (2 * v.cap + 1) (max n 8) > v.cap :=
    Nat.lt_of_lt_of_le (by omega) (le_max_left _ _)
  refine ⟨hm, by rw [hm]; exact hgt, fun e he => ?_⟩
  unfold Vec._grow at he
  simp only [hc, not_true_eq_false, if_false, hm, hgt] at he
  split at he
  · cases he
  · split at he
    · cases he
    · split at he
      · rename_i e1 he1
        have := _destroy_error he1
        cases he
        cases this
      · cases he

/-- Witness for C18: `_grow(3)` on an object of capacity 2. -/
theorem grow_second_assertion_witness :
    (2 * demo_vec.cap + 1) % (SIZE_MAX + 1) = 2 * demo_vec.cap + 1 ∧
    max ((2 * demo_vec.cap + 1) % (SIZE_MAX + 1)) (max 3 8) > demo_vec.cap ∧
    ∀ e, demo_vec._grow 3 demo_world.heap ≠ .error (Stop.assert_new_cap, e) :=
  grow_second_assertion demo_vec 3 demo_world.heap (by decide)

/-- C19 (code defect in `vector.h`): evaluation of `push_back` on an empty array in both
classes with a never failing allocator. After `push_back(5)`, `vector<int>` has capacity 0
and `end() - begin() == 0` where `Vec<int>` has capacity 8 and `end() - begin() == 1`; after
`push_back(5), push_back(6), push_back(7)`, the cells below `size()` of `vector<int>` are
`7` followed by two uninitialised cells where those of `Vec<int>` are `5, 6, 7`. -/
theorem vector_differs_from_Vec :
    compare_view (vector.push_back_all [.obj 5] (vector._construct ⟨0, 0, 0, 0⟩)
      (Heap.init never_fails : Heap Nat)) = some (1, 0, 0, [⟨true, some 5⟩]) ∧
    compare_view (push_back_all [.obj 5] (Vec.ctor ⟨0, 0, 0, 0⟩)
      (Heap.init never_fails : Heap Nat)) = some (1, 8, 1, [⟨true, some 5⟩]) ∧
    compare_view (vector.push_back_all [.obj 5, .obj 6, .obj 7] (vector._construct ⟨0, 0, 0, 0⟩)
      (Heap.init never_fails : Heap Nat)) = some (3, 0, 0, [⟨true, some 7⟩, Slot.raw, Slot.raw]) ∧
    compare_view (push_back_all [.obj 5, .obj 6, .obj 7] (Vec.ctor ⟨0, 0, 0, 0⟩)
      (Heap.init never_fails : Heap Nat)) =
        some (3, 8, 3, [⟨true, some 5⟩, ⟨true, some 6⟩, ⟨true, some 7⟩]) := by
  exact ⟨by decide, by decide, by decide, by decide⟩

/-- C15: for every object of a reachable program state, `end()` is `size()` cells above
`begin()` (so `end() - begin() == size()`); iterating from `begin()` until `end()` terminates
and visits exactly `size()` cells, the `k`-th of which is `operator[](k)`; and `empty()` is
true exactly when `begin() == end()`. -/
theorem iterate_spec (w : World T) (hr : Reachable w) (v : Vec) (hv : v ∈ w.objs) :
    v.begin + v.size = v.end_ ∧ v.end_ - v.begin = v.size ∧
    (∃ cells, v.iterate w.heap = some cells ∧ cells.length = v.size ∧
      ∀ k, k < v.size → cells[k]? = some (v.index w.heap k)) ∧
    (v.empty = true ↔ v.begin = v.end_) := by
  obtain ⟨i1, _, _, _⟩ := hr.inv.2 v hv
  simp only [Vec.begin, Vec.end_, Vec.size, Vec.empty, decide_eq_true_eq]
  refine ⟨by omega, by omega, ⟨(List.range v.len).map fun k => w.heap.mem (v.data + k), ?_, ?_, ?_⟩,
    by omega⟩
  · have e : v.one_past_last - v.data = v.len := by omega
    unfold Vec.iterate
    simp only [Vec.begin, Vec.end_]
    rw [e, i1]
    exact iterate_loop_spec v.len v.data w.heap
  · simp
  · intro k hk
    simp [hk, Vec.index]

/-- Witness for C15: iteration over the object of `Vec<int> a(2, 7);`. -/
theorem iterate_spec_witness :
    demo_vec.begin + demo_vec.size = demo_vec.end_ ∧
    demo_vec.end_ - demo_vec.begin = demo_vec.size ∧
    (∃ cells, demo_vec.iterate demo_world.heap = some cells ∧ cells.length = demo_vec.size ∧
      ∀ k, k < demo_vec.size → cells[k]? = some (demo_vec.index demo_world.heap k)) ∧
    (demo_vec.empty = true ↔ demo_vec.begin = demo_vec.end_) :=
  iterate_spec demo_world ((Reachable.start never_fails).exec _) demo_vec (by decide)

/-- C20: for every list of arguments pushed onto an empty object (whatever they refer to,
and whatever the heap and the allocator do), the total number of element copies made by
growth steps is at most twice the number of `push_back` calls. -/
theorem push_back_amortised (vals : List (Ref T)) (raw : Vec) (h : Heap T) :
    push_back_all_copies vals (Vec.ctor raw) h ≤ 2 * vals.length := by
  have := push_back_all_copies_le vals (Vec.ctor raw) h 0 rfl (Nat.le_refl _)
    (by simp [Vec.ctor, Vec._construct, SIZE_MAX]) (Nat.zero_le _) (Nat.zero_le _)
  simpa [Vec.ctor, Vec._construct] using this

/-- C11: let `a` and `b` be the objects at the positions `i` and `j` of a reachable program
state, with an allocator that serves the request for `b.size()` elements. If `i ≠ j`, the
copy assignment `a = b` returns normally; afterwards the length and the capacity of `a` are
`b.size()`, cell `k` of `a` is a live element with the value of `b[k]` for every
`k < b.size()`, and the members and cells of `b` are unchanged. The self-assignment `a = a`
leaves the whole program state unchanged. -/
theorem copy_assign_spec (w : World T) (hr : Reachable w) (i j : Nat) (a b : Vec)
    (hi : w.objs[i]? = some a) (hj : w.objs[j]? = some b)
    (ha : w.heap.oom w.heap.nallocs b.size = false) :
    (i ≠ j → ∃ a1 h1,
      w.step (.copy_assign i j) = some { objs := w.objs.set i a1, heap := h1 } ∧
      a1.size = b.size ∧ a1.cap = b.size ∧
      (∀ k, k < b.size → a1.index h1 k = ⟨true, (b.index w.heap k).val⟩) ∧
      (w.objs.set i a1)[j]? = some b ∧ b.contents h1 = b.contents w.heap) ∧
    w.step (.copy_assign i i) = some w := by
  refine ⟨fun hij => ?_, ?_⟩
  · obtain ⟨a1, a2, a3, _⟩ := hr.inv.2 a (List.getElem?_mem hi)
    obtain ⟨b1, b2, b3, _⟩ := hr.inv.2 b (List.getElem?_mem hj)
    have hsep := hr.owns.2 i j a b hij hi hj
    simp only [Vec.size] at ha ⊢
    obtain ⟨h2, d1, d2, d3, d4, d5, _⟩ := _destroy_spec a w.heap (by omega)
    have hd : b.one_past_last - b.data = b.len := by omega
    obtain ⟨h1, c1, _, _, c4⟩ := _construct_range_spec ⟨0, 0, 0, 0⟩ b.data b.one_past_last h2
      (by omega) (by omega) (by rw [d3, d4, hd]; exact ha)
    rw [hd, d2] at c1 c4
    have hkeep : ∀ c, b.data ≤ c ∧ c < b.data + b.len → h1.mem c = w.heap.mem c := by
      intro c hc
      unfold Sep at hsep
      rw [c4, if_neg (by omega), d5 c (by omega) (by omega)]
    refine ⟨⟨b.len, b.len, w.heap.next + b.len, w.heap.next⟩, h1, ?_, rfl, rfl,
      fun k hk => ?_, ?_, contents_congr b w.heap h1 hkeep⟩
    · simp only [World.step, hi, hj, hij, decide_False, Vec.copy_assign, if_true, d1,
        Vec.begin, Vec.end_, c1, World.put]
    · simp only [Vec.index]
      unfold Sep at hsep
      rw [c4, if_pos (by omega), Nat.add_sub_cancel_left, d5 _ (by omega) (by omega)]
    · rw [List.getElem?_set_ne hij]
      exact hj
  · simp only [World.step, hi, decide_True, Vec.copy_assign, Bool.true_eq_false, if_false,
      World.put, set_same w.objs i a hi]

/-- Witness for C11: `Vec<int> a(2, 7); Vec<int> b(1, 9); a = b;` and `a = a;`. -/
theorem copy_assign_spec_witness :
    (0 ≠ 1 → ∃ a1 h1,
      pair_world.step (.copy_assign 0 1) =
        some { objs := pair_world.objs.set 0 a1, heap := h1 } ∧
      a1.size = (⟨1, 1, 5, 4⟩ : Vec).size ∧ a1.cap = (⟨1, 1, 5, 4⟩ : Vec).size ∧
      (∀ k, k < (⟨1, 1, 5, 4⟩ : Vec).size →
        a1.index h1 k = ⟨true, ((⟨1, 1, 5, 4⟩ : Vec).index pair_world.heap k).val⟩) ∧
      (pair_world.objs.set 0 a1)[1]? = some ⟨1, 1, 5, 4⟩ ∧
      (⟨1, 1, 5, 4⟩ : Vec).contents h1 = (⟨1, 1, 5, 4⟩ : Vec).contents pair_world.heap) ∧
    pair_world.step (.copy_assign 0 0) = some pair_world :=
  copy_assign_spec pair_world (((Reachable.start never_fails).exec _).exec _) 0 1 demo_vec
    ⟨1, 1, 5, 4⟩ rfl rfl rfl

/-- C14 (amended): in every reachable program state, an object whose storage pointer is
null has capacity 0 (and length 0 and a null `one_past_last`); so an object with a capacity
other than 0 has storage. -/
theorem null_storage_has_no_capacity (w : World T) (hr : Reachable w) (v : Vec)
    (hv : v ∈ w.objs) :
    (v.data = NULL → v.cap = 0 ∧ v.len = 0 ∧ v.one_past_last = NULL) ∧
    (v.cap ≠ 0 → v.data ≠ NULL) := by
  obtain ⟨i1, i2, _, _⟩ := hr.inv.2 v hv
  have ho := hr.owns.1 v hv
  refine ⟨fun e => ?_, fun hc e => hc (ho e)⟩
  have := ho e
  simp only [NULL] at e ⊢
  omega

/-- Witness for C14: the object of `Vec<int> a(2, 7);`. -/
theorem null_storage_has_no_capacity_witness :
    (demo_vec.data = NULL → demo_vec.cap = 0 ∧ demo_vec.len = 0 ∧
      demo_vec.one_past_last = NULL) ∧
    (demo_vec.cap ≠ 0 → demo_vec.data ≠ NULL) :=
  null_storage_has_no_capacity demo_world ((Reachable.start never_fails).exec _) demo_vec
    (by decide)

/-- C14 as stated fails: after `Vec<int> a(0, 7);`, and also after `Vec<int> a; Vec<int> b(a);`,
the program state is reachable and holds an object with capacity 0 whose storage pointer is
the non-null address returned by `allocate(0)`. -/
theorem zero_capacity_with_storage :
    Reachable zero_world ∧ (⟨0, 0, 1, 1⟩ : Vec) ∈ zero_world.objs ∧
    Reachable copy_empty_world ∧ (⟨0, 0, 1, 1⟩ : Vec) ∈ copy_empty_world.objs ∧
    ¬ ((⟨0, 0, 1, 1⟩ : Vec).data = NULL ↔ (⟨0, 0, 1, 1⟩ : Vec).cap = 0) :=
  ⟨(Reachable.start never_fails).exec _, by decide,
    ((Reachable.start never_fails).exec _).exec _, by decide, by decide⟩

/-- C12 (code defect): the body of move assignment calls a member named `swap`, and the
class declares no member of that name; the member that performs the exchange, and that the
move constructor calls, is `_swap`. A program that uses `a = std::move(b)` is ill-formed. -/
theorem move_assign_calls_undeclared_member :
    move_assign_callee ∉ Vec.declared ∧ ctor_move_callee ∈ Vec.declared := by
  decide

end Claims

end VecCpp
